import Mathlib

/-
Verification of the rowboat CSV mapping library (reader.go / writer part).

The embedding models the library's field-metadata resolver, value codec,
reader streaming loop and writer loop over an abstract row source/sink:
the external CSV tokenizer/encoder (Go's encoding/csv) is, as in the spec,
a black box turning a byte stream into ordered rows of strings, so rows
are `List String` here.  Go reflection values are modelled by the closed
universe `Value` below.  `float64`/`float32` fields and `time.Time` fields
are outside the embedded universe (IEEE 754 and calendar arithmetic do not
translate to the shallow embedding); the codec's dispatch structure,
including the slot where the time.Time branch sits, is kept.
Struct fields are assumed exported (for unexported fields reflection's
CanSet/CanInterface are false); Go guarantees field identifiers of one
struct are distinct, which appears as Nodup hypotheses.
-/

namespace Rowboat

/-- Reflect kinds handled by the codec's switch statements.  `kint` stands
for the signed family (int, int8..int64) at its widest, 64 bits, matching
ParseInt/SetInt/FormatInt on int64; `kuint` likewise for the unsigned
family. -/
inductive FKind where
  | kstr
  | kint
  | kbool
  | kuint
  deriving DecidableEq, Repr

/-- A runtime value of a struct field (a typed reflect.Value). -/
inductive Value where
  | vstr (s : String)
  | vint (n : Int)
  | vbool (b : Bool)
  | vuint (n : Nat)
  deriving DecidableEq, Repr

/-- Model of reflect's typed accessor field.String(). -/
def Value.toStr : Value → String
  | .vstr s => s
  | _ => ""

/-- Model of reflect's typed accessor field.Int(). -/
def Value.toInt : Value → Int
  | .vint n => n
  | _ => 0

/-- Model of reflect's typed accessor field.Bool(). -/
def Value.toBool : Value → Bool
  | .vbool b => b
  | _ => false

/-- Model of reflect's typed accessor field.Uint(). -/
def Value.toUint : Value → Nat
  | .vuint n => n
  | _ => 0

/-- The zero value of each kind (what a freshly allocated `var t T` holds). -/
def kindZero : FKind → Value
  | .kstr => .vstr ""
  | .kint => .vint 0
  | .kbool => .vbool false
  | .kuint => .vuint 0

/-- Go's static typing: a value inhabiting a field of the given kind, with
the machine-width bounds int64/uint64 impose. -/
def typedVal : FKind → Value → Bool
  | .kstr, .vstr _ => true
  | .kint, .vint n => decide (-(2 ^ 63) ≤ n) && decide (n < 2 ^ 63)
  | .kbool, .vbool _ => true
  | .kuint, .vuint n => decide (n < 2 ^ 64)
  | _, _ => false

/- ---------------------------------------------------------------------
Model of strconv: base-10 formatting and parsing used by the codec.
--------------------------------------------------------------------- -/

/-- Decimal digit character for d < 10 (FormatInt's digit table). -/
def digitChar : Nat → Char
  | 0 => '0' | 1 => '1' | 2 => '2' | 3 => '3' | 4 => '4'
  | 5 => '5' | 6 => '6' | 7 => '7' | 8 => '8' | _ => '9'

/-- Numeric value of a decimal digit character, none for non-digits. -/
def digitVal (c : Char) : Option Nat :=
  if '0' ≤ c ∧ c ≤ '9' then some (c.toNat - 48) else none

def isDigit (c : Char) : Bool := (digitVal c).isSome

/-- Accumulating base-10 read of a digit string (ParseUint's loop). -/
def digitsToNat (ds : List Char) : Nat :=
  ds.foldl (fun a c => a * 10 + (digitVal c).getD 0) 0

/-- Fuel-driven digit expansion; fuel `n + 1` always suffices.  Models
FormatUint's divide-by-ten loop structurally so the kernel can reduce it. -/
def natDigitsAux : Nat → Nat → List Char
  | 0, _ => []
  | fuel + 1, n =>
    if n < 10 then [digitChar n]
    else natDigitsAux fuel (n / 10) ++ [digitChar (n % 10)]

/-- Base-10 digit list of a natural number (FormatUint). -/
def natDigits (n : Nat) : List Char := natDigitsAux (n + 1) n

/-- strconv.FormatUint(v, 10). -/
def formatUint (n : Nat) : String := ⟨natDigits n⟩

/-- strconv.FormatUint applied by field.Uint(); strconv.FormatInt(v, 10). -/
def formatInt (i : Int) : String :=
  if i < 0 then "-" ++ formatUint i.natAbs else formatUint i.toNat

/-- strconv.FormatBool. -/
def formatBool (b : Bool) : String := if b then "true" else "false"

/-- Digit-run parse: nonempty, all decimal digits (ParseUint, base 10
given explicitly so underscores are rejected). -/
def parseNatDigits (ds : List Char) : Option Nat :=
  if ds.isEmpty then none
  else if ds.all isDigit then some (digitsToNat ds) else none

/-- Sign handling of ParseInt: strip one optional leading sign. -/
def splitSign : List Char → Bool × List Char
  | [] => (false, [])
  | c :: cs =>
    if c = '-' then (true, cs)
    else if c = '+' then (false, cs)
    else (false, c :: cs)

/-- strconv.ParseInt(s, 10, 64): optional sign, digit run, int64 range. -/
def parseIntStr (s : String) : Option Int :=
  match s.data with
  | [] => none
  | c :: cs =>
    match parseNatDigits (splitSign (c :: cs)).2 with
    | none => none
    | some m =>
      let v : Int := if (splitSign (c :: cs)).1 then -(m : Int) else (m : Int)
      if -(2 ^ 63) ≤ v ∧ v ≤ 2 ^ 63 - 1 then some v else none

/-- strconv.ParseBool: the exact accepted token set. -/
def parseBoolStr (s : String) : Option Bool :=
  if s = "1" ∨ s = "t" ∨ s = "T" ∨ s = "TRUE" ∨ s = "true" ∨ s = "True" then
    some true
  else if s = "0" ∨ s = "f" ∨ s = "F" ∨ s = "FALSE" ∨ s = "false" ∨ s = "False" then
    some false
  else none

theorem digitVal_digitChar {d : Nat} (h : d < 10) :
    digitVal (digitChar d) = some d := by
  interval_cases d <;> decide

theorem natDigitsAux_spec :
    ∀ fuel n, n < fuel →
      natDigitsAux fuel n ≠ [] ∧ (natDigitsAux fuel n).all isDigit = true ∧
        digitsToNat (natDigitsAux fuel n) = n := by
  intro fuel
  induction fuel with
  | zero => intro n h; omega
  | succ f ih =>
    intro n hn
    by_cases h10 : n < 10
    · refine ⟨by simp [natDigitsAux, h10], ?_, ?_⟩
      · simp [natDigitsAux, h10, isDigit, digitVal_digitChar h10]
      · simp [natDigitsAux, h10, digitsToNat, digitVal_digitChar h10]
    · have hdiv : n / 10 < f := by
        have h1 : n / 10 < n := Nat.div_lt_self (by omega) (by omega)
        omega
      obtain ⟨hne, hall, hval⟩ := ih (n / 10) hdiv
      have hm : n % 10 < 10 := Nat.mod_lt _ (by omega)
      refine ⟨by simp [natDigitsAux, h10], ?_, ?_⟩
      · simp [natDigitsAux, if_neg h10, List.all_append, hall, isDigit,
          digitVal_digitChar hm]
      · simp only [natDigitsAux, if_neg h10, digitsToNat, List.foldl_append,
          List.foldl_cons, List.foldl_nil]
        have : digitsToNat (natDigitsAux f (n / 10)) = n / 10 := hval
        simp only [digitsToNat] at this
        rw [this, digitVal_digitChar hm]
        simp only [Option.getD_some]
        omega

theorem natDigits_spec (n : Nat) :
    natDigits n ≠ [] ∧ (natDigits n).all isDigit = true ∧
      digitsToNat (natDigits n) = n :=
  natDigitsAux_spec (n + 1) n (Nat.lt_succ_self n)

theorem parseNatDigits_natDigits (n : Nat) :
    parseNatDigits (natDigits n) = some n := by
  obtain ⟨hne, hall, hval⟩ := natDigits_spec n
  simp [parseNatDigits, List.isEmpty_iff, hne, hall, hval]

theorem isDigit_ne_sign {c : Char} (h : isDigit c = true) :
    c ≠ '-' ∧ c ≠ '+' := by
  constructor <;> rintro rfl <;> simp [isDigit, digitVal] at h

theorem splitSign_neg (ds : List Char) : splitSign ('-' :: ds) = (true, ds) := by
  simp [splitSign]

theorem splitSign_digit {c : Char} (cs : List Char) (h : isDigit c = true) :
    splitSign (c :: cs) = (false, c :: cs) := by
  obtain ⟨hm, hp⟩ := isDigit_ne_sign h
  simp [splitSign, hm, hp]

theorem parseIntStr_formatInt (i : Int)
    (hlo : -(2 ^ 63) ≤ i) (hhi : i ≤ 2 ^ 63 - 1) :
    parseIntStr (formatInt i) = some i := by
  by_cases hneg : i < 0
  · obtain ⟨hne, hall, hval⟩ := natDigits_spec i.natAbs
    have hdata : (formatInt i).data = '-' :: natDigits i.natAbs := by
      simp only [formatInt, if_pos hneg, formatUint]
      rfl
    have hv : -((i.natAbs : Nat) : Int) = i := by omega
    have hc : -(2 : Int) ^ 63 ≤ i ∧ i ≤ 2 ^ 63 - 1 := ⟨hlo, hhi⟩
    rw [parseIntStr, hdata]
    simp [splitSign_neg, parseNatDigits_natDigits, hv, hc]
    rw [abs_of_neg hneg]
    omega
  · have hpos : 0 ≤ i := by omega
    obtain ⟨hne, hall, hval⟩ := natDigits_spec i.toNat
    have hdata : (formatInt i).data = natDigits i.toNat := by
      simp [formatInt, if_neg hneg, formatUint]
    rw [parseIntStr, hdata]
    cases hds : natDigits i.toNat with
    | nil => exact absurd hds hne
    | cons c cs =>
      have hcd : isDigit c = true := by
        rw [hds] at hall
        simp [List.all_cons] at hall
        exact hall.1
      have hv : ((i.toNat : Nat) : Int) = i := Int.toNat_of_nonneg hpos
      have hc : -(2 : Int) ^ 63 ≤ i ∧ i ≤ 2 ^ 63 - 1 := ⟨hlo, hhi⟩
      simp only [splitSign_digit cs hcd]
      rw [← hds, parseNatDigits_natDigits]
      simp [hv, hc]
      omega

theorem parseBoolStr_formatBool (b : Bool) :
    parseBoolStr (formatBool b) = some b := by
  cases b <;> rfl

/- ---------------------------------------------------------------------
Field metadata: struct fields, tags and the resolver shared by
createFieldMap (reader) and createFieldInfo (writer).
--------------------------------------------------------------------- -/

/-- Decode/encode hooks of a field's type.  `unmarshalVal` is a
value-receiver UnmarshalCSV (so `field.Type().Implements` holds),
`unmarshalPtr` a pointer-receiver one (only `field.Addr().Type()`
implements); likewise for MarshalCSV.  A hook is a pure function from the
receiver-independent input; UnmarshalCSV's receiver mutation is modelled
by returning the new field value. -/
structure FType where
  kind : FKind
  unmarshalVal : Option (String → Except String Value) := none
  unmarshalPtr : Option (String → Except String Value) := none
  marshalVal : Option (Value → Except String String) := none
  marshalPtr : Option (Value → Except String String) := none

/-- A field type with no custom hooks. -/
def plainType (k : FKind) : FType := { kind := k }

/-- Whether a type declares no CSV hooks at all. -/
def noHooks (t : FType) : Bool :=
  t.unmarshalVal.isNone && t.unmarshalPtr.isNone &&
    t.marshalVal.isNone && t.marshalPtr.isNone

/-- One struct field declaration.  `tagName` is the first component of the
`csv` tag when nonempty, `tagIndex` the parsed value of an `index=N`
component when present (tag tokenization and Atoi live outside the model;
a malformed index only yields the resolver's construction error, which no
field below has).  `skip` records a tag of exactly `-`. -/
structure GoField where
  fname : String
  tagName : Option String := none
  tagIndex : Option Int := none
  skip : Bool := false
  ftype : FType

/-- The logical column name: tag component 0 when nonempty, else the
field identifier. -/
def declName (f : GoField) : String := f.tagName.getD f.fname

def defaultGoField : GoField := { fname := "", ftype := plainType .kstr }

/-- The per-field record built by the first pass of createFieldMap /
createFieldInfo: the declaration position (field.Index[0]), resolved
name, working ordinal, and the field itself. -/
structure FieldInfo where
  pos : Nat
  name : String
  index : Int
  gf : GoField

/-- First pass of the resolver: walk the declared fields with counter `i`,
dropping `csv:"-"` fields, defaulting the ordinal to the declaration
position, and tracking the maximum explicit ordinal (-1 when none). -/
def collectFields : List GoField → Nat → List FieldInfo × Int
  | [], _ => ([], -1)
  | f :: fs, i =>
    let rest := collectFields fs (i + 1)
    if f.skip then rest
    else
      let idx : Int := (f.tagIndex.getD (i : Int))
      let mx : Int := match f.tagIndex with
        | some v => max v rest.2
        | none => rest.2
      (⟨i, declName f, idx, f⟩ :: rest.1, mx)

/-- Second pass: every field whose working ordinal still equals its own
declaration position is treated as having no explicit ordinal and is
assigned `nextIndex`, `nextIndex` incrementing; this is the source's
coincidence-based placeholder test (`fields[i].index == fields[i].field.Index[0]`). -/
def assignIndexes : List FieldInfo → Int → List FieldInfo
  | [], _ => []
  | fi :: rest, next =>
    if fi.index = (fi.pos : Int) then
      { fi with index := next } :: assignIndexes rest (next + 1)
    else
      fi :: assignIndexes rest next

/-- Insertion step of the ordinal sort. -/
def insertByIndex (x : FieldInfo) : List FieldInfo → List FieldInfo
  | [] => [x]
  | y :: ys => if y.index ≤ x.index then y :: insertByIndex x ys else x :: y :: ys

/-- Sort the resolved fields by ordinal ascending.  The source uses
sort.Slice with a strict `<` comparator; for the distinct ordinals this
program produces every comparison sort agrees, and insertion sort keeps
the recursion structural. -/
def sortFields : List FieldInfo → List FieldInfo
  | [] => []
  | x :: xs => insertByIndex x (sortFields xs)

/-- The Field Metadata Resolver: identical logic in the reader's
createFieldMap (first half) and the writer's createFieldInfo. -/
def resolveFields (rt : List GoField) : List FieldInfo :=
  let c := collectFields rt 0
  sortFields (assignIndexes c.1 (c.2 + 1))

/-- Modelled from the spec: the second pass as §4.1/§9 intend it, with
explicit-vs-implicit tracked by the annotation itself (a separate boolean)
rather than inferred from the ordinal coinciding with the declaration
position.  Used only to exhibit the divergence of the source's pass. -/
def assignIndexesSpec : List FieldInfo → Int → List FieldInfo
  | [], _ => []
  | fi :: rest, next =>
    if fi.gf.tagIndex.isNone then
      { fi with index := next } :: assignIndexesSpec rest (next + 1)
    else
      fi :: assignIndexesSpec rest next

/-- Modelled from the spec: the resolver with the corrected second pass. -/
def resolveFieldsSpec (rt : List GoField) : List FieldInfo :=
  let c := collectFields rt 0
  sortFields (assignIndexesSpec c.1 (c.2 + 1))

/-- Name-and-ordinal view of a resolved field list, for concrete runs. -/
def resolvedView (l : List FieldInfo) : List (String × Int) :=
  l.map fun fi => (fi.name, fi.index)

/-- Record type exhibiting the C1 divergence: field A carries the
explicit annotation `index=0`, equal to its own declaration position. -/
def rtC1 : List GoField :=
  [ { fname := "A", tagName := some "A", tagIndex := some 0, ftype := plainType .kint },
    { fname := "B", tagName := some "B", tagIndex := some 2, ftype := plainType .kstr },
    { fname := "C", tagName := some "C", ftype := plainType .kbool } ]

/-- C1: for every record type, fields annotated `index=N` are placed at
position N in the resolved order and implicit fields get strictly
increasing ordinals from (max explicit)+1 — including an explicit index
equal to the field's own declaration position.  The code violates exactly
that last case: on `[A(index=0), B(index=2), C]` the coincidence-based
placeholder test reassigns A (explicit 0 = declaration position 0) to
ordinal 3, resolving to order B(2), A(3), C(4), while the resolver the
spec describes (explicitness tracked separately, §9) yields A(0), B(2),
C(3).  This theorem evaluates both at the failing input. -/
theorem c1_explicit_index_coincidence_code_bug :
    resolvedView (resolveFields rtC1) = [("B", 2), ("A", 3), ("C", 4)] ∧
      resolvedView (resolveFieldsSpec rtC1) = [("A", 0), ("B", 2), ("C", 3)] := by
  constructor <;> rfl

/- ---------------------------------------------------------------------
Value codec: setFieldValue (decode) and getFieldStringValue (encode).
--------------------------------------------------------------------- -/

/-- Decode one cell into a field (setFieldValue).  Dispatch order is the
source's: value-receiver UnmarshalCSV (the interface call mutates a boxed
copy, so the field keeps `old` on success), then — only when the field is
addressable, as it is for the reader's `reflect.ValueOf(&t).Elem()` —
pointer-receiver UnmarshalCSV, then the time.Time branch (outside the
embedded universe), then the kind switch.  Unsigned kinds fall to the
default arm: unsupported field type. -/
def setFieldValue (addressable : Bool) (old : Value) (t : FType)
    (value : String) : Except String Value :=
  match t.unmarshalVal with
  | some h =>
    match h value with
    | .error e => .error e
    | .ok _ => .ok old
  | none =>
  match (if addressable then t.unmarshalPtr else none) with
  | some h => h value
  | none =>
  match t.kind with
  | .kstr => .ok (.vstr value)
  | .kint =>
    match parseIntStr value with
    | some n => .ok (.vint n)
    | none => .error ("invalid integer syntax: " ++ value)
  | .kbool =>
    match parseBoolStr value with
    | some b => .ok (.vbool b)
    | none => .error ("invalid bool syntax: " ++ value)
  | .kuint => .error "unsupported field type: uint64"

/-- Encode one field to a cell (getFieldStringValue).  Same dispatch
shape; the writer calls it on fields of `reflect.ValueOf(record)`, which
is NOT addressable, so its pointer-receiver MarshalCSV check
(`field.CanAddr() && ...`) never fires there. -/
def getFieldStringValue (addressable : Bool) (t : FType) (v : Value) :
    Except String String :=
  match t.marshalVal with
  | some h => h v
  | none =>
  match (if addressable then t.marshalPtr else none) with
  | some h => h v
  | none =>
  match t.kind with
  | .kstr => .ok v.toStr
  | .kint => .ok (formatInt v.toInt)
  | .kuint => .ok (formatUint v.toUint)
  | .kbool => .ok (formatBool v.toBool)

/-- A type whose pointer type alone provides MarshalCSV, over an int
field; the hook would emit the sentinel text HOOK. -/
def ptrOnlyMarshalType : FType :=
  { kind := .kint, marshalPtr := some fun _ => .ok "HOOK" }

/-- C4 counterexample: the claim says a MarshalCSV provided on the
pointer type is invoked and authoritative, the built-in rules never
consulted.  For the Writer the record value is not addressable, so on a
field of `ptrOnlyMarshalType` holding int 5 the encoder ignores the hook
(which returns HOOK) and consults the built-in int rule, producing 5. -/
theorem c4_ptr_marshal_counterexample :
    ptrOnlyMarshalType.marshalPtr = some (fun _ => .ok "HOOK") ∧
      (∀ v : Value, (fun _ : Value => (.ok "HOOK" : Except String String)) v = .ok "HOOK") ∧
      getFieldStringValue false ptrOnlyMarshalType (.vint 5) = .ok "5" ∧
      (.ok "5" : Except String String) ≠ .ok "HOOK" := by
  refine ⟨rfl, fun v => rfl, rfl, by simp⟩

/-- C4 (amended): custom hooks take precedence over every built-in rule —
a value-receiver UnmarshalCSV/MarshalCSV is always authoritative, and a
pointer-receiver UnmarshalCSV is authoritative for the reader (whose
fields are addressable); but the writer's fields are not addressable, so
a pointer-receiver-only MarshalCSV is never consulted and encoding falls
through to the built-in rules.  In each hook case the result is the
hook's alone: the equations do not mention the field's kind. -/
theorem c4_hook_precedence_amended (t : FType) (old v : Value) (s : String)
    (h : String → Except String Value) (g : Value → Except String String) :
    (t.unmarshalVal = some h →
      setFieldValue true old t s =
        (match h s with | .error e => .error e | .ok _ => .ok old)) ∧
    (t.unmarshalVal = none → t.unmarshalPtr = some h →
      setFieldValue true old t s = h s) ∧
    (t.marshalVal = some g → getFieldStringValue false t v = g v) ∧
    (t.marshalVal = none →
      getFieldStringValue false t v =
        getFieldStringValue false { t with marshalPtr := none } v) := by
  refine ⟨?_, ?_, ?_, ?_⟩
  · intro hv
    simp only [setFieldValue, hv]
  · intro hv hp
    simp only [setFieldValue, hv, hp, if_true]
  · intro hv
    simp only [getFieldStringValue, hv]
  · intro hv
    simp [getFieldStringValue, hv]

/-- C4 amended witness: a concrete hooked type exercising each clause. -/
theorem c4_hook_precedence_amended_witness :
    setFieldValue true (.vint 0)
        { kind := .kint, unmarshalVal := some fun _ => .ok (.vint 7) } "x" =
      .ok (.vint 0) ∧
    setFieldValue true (.vint 0)
        { kind := .kint, unmarshalPtr := some fun _ => .ok (.vint 7) } "x" =
      .ok (.vint 7) ∧
    getFieldStringValue false
        { kind := .kint, marshalVal := some fun _ => .ok "M" } (.vint 5) =
      .ok "M" ∧
    getFieldStringValue false ptrOnlyMarshalType (.vint 5) =
      getFieldStringValue false { ptrOnlyMarshalType with marshalPtr := none }
        (.vint 5) := by
  have h1 := (c4_hook_precedence_amended
    { kind := .kint, unmarshalVal := some fun _ => .ok (.vint 7) }
    (.vint 0) (.vint 0) "x" (fun _ => .ok (.vint 7)) (fun _ => .ok "M")).1 rfl
  have h2 := ((c4_hook_precedence_amended
    { kind := .kint, unmarshalPtr := some fun _ => .ok (.vint 7) }
    (.vint 0) (.vint 0) "x" (fun _ => .ok (.vint 7)) (fun _ => .ok "M")).2).1 rfl rfl
  have h3 := (((c4_hook_precedence_amended
    { kind := .kint, marshalVal := some fun _ => .ok "M" }
    (.vint 0) (.vint 5) "x" (fun _ => .ok (.vint 7)) (fun _ => .ok "M")).2).2).1 rfl
  have h4 := (((c4_hook_precedence_amended ptrOnlyMarshalType
    (.vint 0) (.vint 5) "x" (fun _ => .ok (.vint 7)) (fun _ => .ok "M")).2).2).2 rfl
  exact ⟨h1, h2, h3, h4⟩

/-- C10: encode/decode asymmetry for unsigned integer kinds without
hooks: the writer's encoder always succeeds with the base-10 text, while
the reader's decoder rejects every cell with an unsupported-field-type
error. -/
theorem c10_uint_encode_decode_asymmetry (n : Nat) (s : String)
    (addressable : Bool) (old : Value) :
    getFieldStringValue addressable (plainType .kuint) (.vuint n) =
      .ok (formatUint n) ∧
    setFieldValue addressable old (plainType .kuint) s =
      .error "unsupported field type: uint64" := by
  constructor
  · simp [getFieldStringValue, plainType, Value.toUint]
  · simp [setFieldValue, plainType]

/- ---------------------------------------------------------------------
Reader: header map, column mapping, row decoding and the All loop.
--------------------------------------------------------------------- -/

/-- Pair each element with its position, starting at `k` (Go's
range-with-index). -/
def withIdx (k : Nat) : List α → List (Nat × α)
  | [] => []
  | x :: xs => (k, x) :: withIdx (k + 1) xs

/-- Whitespace as strings.TrimSpace sees it (the ASCII cases; the full
Unicode space class is outside the model). -/
def isSpaceChar (c : Char) : Bool :=
  c = ' ' || c = '\t' || c = '\n' || c = '\r'

/-- strings.TrimSpace, modelled structurally over the character list so
that concrete runs reduce in the kernel. -/
def trimGo (s : String) : String :=
  ⟨((s.data.dropWhile isSpaceChar).reverse.dropWhile isSpaceChar).reverse⟩

/-- The header map: trimmed header name to column index, later duplicate
names overwriting earlier ones as in a Go map; lookup of the final map is
the last matching insert. -/
def headerMapGo (i : Nat) : List String → String → Option Nat
  | [], _ => none
  | h :: rest, s =>
    match headerMapGo (i + 1) rest s with
    | some j => some j
    | none => if s = trimGo h then some i else none

/-- Build the column mapping `columnIndex -> field` by walking the
resolved fields; an insert for an index already present overwrites, so
entries are consed newest-first and lookup takes the first match. -/
def buildFieldMap (hm : String → Option Nat) :
    List FieldInfo → List (Nat × FieldInfo) → List (Nat × FieldInfo)
  | [], m => m
  | fi :: rest, m =>
    buildFieldMap hm rest
      (match hm fi.name with
       | some idx => (idx, fi) :: m
       | none => m)

/-- Lookup in the column mapping (first match = latest insert). -/
def fmLookup : List (Nat × FieldInfo) → Nat → Option FieldInfo
  | [], _ => none
  | (k, fi) :: rest, idx => if idx = k then some fi else fmLookup rest idx

/-- createFieldMap: resolver output intersected with the header.  The
source's two construction errors (T not a struct, malformed `index=` tag)
cannot arise in the embedding, whose inputs are struct field lists with
pre-parsed tags, so the result is total. -/
def createFieldMap (headers : List String) (rt : List GoField) :
    List (Nat × FieldInfo) :=
  buildFieldMap (headerMapGo 0 headers) (resolveFields rt) []

/-- reflect's FieldByName: position of the first field with this
identifier (Go structs cannot declare the same identifier twice). -/
def findFieldIdx : List GoField → String → Option Nat
  | [], _ => none
  | f :: fs, nm =>
    if f.fname = nm then some 0 else (findFieldIdx fs nm).map (· + 1)

/-- The record `var t T` starts from: each field at its zero value. -/
def zeroRecord (rt : List GoField) : List Value :=
  rt.map fun f => kindZero f.ftype.kind

/-- Decode one mapped cell into the current record under construction:
look the field up by name (a missing name gives a non-settable zero
Value, skipped — unreachable for resolver-produced names), decode through
the codec, and on error wrap it with the field name as nextRow does. -/
def decodeCell (rt : List GoField) (vals : List Value) (fi : FieldInfo)
    (value : String) : Except String (List Value) :=
  match findFieldIdx rt fi.gf.fname with
  | none => .ok vals
  | some p =>
    let gf := rt.getD p defaultGoField
    match setFieldValue true (vals.getD p (kindZero gf.ftype.kind)) gf.ftype value with
    | .error e => .error ("error setting field " ++ fi.gf.fname ++ ": " ++ e)
    | .ok v => .ok (vals.set p v)

/-- nextRow's cell loop: `for idx, value := range record`, consulting the
column mapping; unmapped cells are ignored. -/
def decodeRowAux (rt : List GoField) (fm : List (Nat × FieldInfo)) :
    List (Nat × String) → List Value → Except String (List Value)
  | [], vals => .ok vals
  | (idx, value) :: rest, vals =>
    match fmLookup fm idx with
    | none => decodeRowAux rt fm rest vals
    | some fi =>
      match decodeCell rt vals fi value with
      | .error e => .error e
      | .ok vals' => decodeRowAux rt fm rest vals'

/-- Decoding of one non-empty row (the body of nextRow after a
successful tokenizer read). -/
def decodeRow (rt : List GoField) (fm : List (Nat × FieldInfo))
    (record : List String) : Except String (List Value) :=
  decodeRowAux rt fm (withIdx 0 record) (zeroRecord rt)

/-- Decode a run of rows, stopping at the first failure. -/
def decodeRows (rt : List GoField) (fm : List (Nat × FieldInfo)) :
    List (List String) → Except String (List (List Value))
  | [] => .ok []
  | r :: rs =>
    match decodeRow rt fm r with
    | .error e => .error e
    | .ok v =>
      match decodeRows rt fm rs with
      | .error e => .error e
      | .ok vs => .ok (v :: vs)

/-- Modelled from the spec: the external CSV tokenizer's blank-line
signal.  Wholly empty rows (blank lines / zero columns) never reach
nextRow — Go's encoding/csv, outside this repository, skips them — so the
row source presents only non-empty rows. -/
def tokenizeRows (rows : List (List String)) : List (List String) :=
  rows.filter fun r => !r.isEmpty

/-- How a traversal of the All sequence ends: source exhausted cleanly,
consumer stopped early, or the deferred panic carrying the stored error. -/
inductive Outcome where
  | done
  | stopped
  | panicked (e : String)
  deriving DecidableEq, Repr

/-- The All loop: pull a row, decode it, yield; `yield` is indexed by the
count of records already yielded (a deterministic consumer).  A decode
error stops the loop and panics with the stored error after the loop; a
false yield returns without the error check. -/
def runAllAux (rt : List GoField) (fm : List (Nat × FieldInfo))
    (yield : Nat → List Value → Bool) :
    List (List String) → Nat → List (List Value) × Outcome
  | [], _ => ([], .done)
  | row :: rest, k =>
    match decodeRow rt fm row with
    | .error e => ([], .panicked e)
    | .ok t =>
      if yield k t then
        let r := runAllAux rt fm yield rest (k + 1)
        (t :: r.1, r.2)
      else ([t], .stopped)

/-- The Reader's streaming surface over a raw row source. -/
def streamRecords (rt : List GoField) (fm : List (Nat × FieldInfo))
    (rows : List (List String)) (yield : Nat → List Value → Bool) :
    List (List Value) × Outcome :=
  runAllAux rt fm yield (tokenizeRows rows) 0

/-- NewReader: take the first row the tokenizer yields as the header and
build the column mapping; none models the construction error on an empty
source. -/
def newReader (rt : List GoField) (rows : List (List String)) :
    Option (List (Nat × FieldInfo) × List (List String)) :=
  match tokenizeRows rows with
  | [] => none
  | h :: rest => some (createFieldMap h rt, rest)

/-- A consumer that never stops. -/
def alwaysYield : Nat → List Value → Bool := fun _ _ => true

/-- A consumer that accepts exactly `n` records, then stops: yield
returns false on record number n (0-based index n-1). -/
def stopAt (n : Nat) : Nat → List Value → Bool := fun i _ => i + 1 < n

/-- Construct a Reader and traverse its whole sequence. -/
def readAll (rt : List GoField) (rows : List (List String)) :
    Option (List (List Value) × Outcome) :=
  match newReader rt rows with
  | none => none
  | some (fm, rest) => some (runAllAux rt fm alwaysYield rest 0)

/- ---------------------------------------------------------------------
Writer: field order list, header emission, row encoding.
--------------------------------------------------------------------- -/

/-- Writer state: the writeHeaderOnce flag, the csv.Writer's buffered
rows, and the rows already flushed to the underlying sink. -/
structure WState where
  headerWritten : Bool
  buf : List (List String)
  sink : List (List String)
  deriving DecidableEq, Repr

/-- A fresh Writer (NewWriter, after createFieldInfo succeeded). -/
def initWriter : WState := ⟨false, [], []⟩

/-- csv.Writer.Write: buffer one row. -/
def bufferRow (s : WState) (r : List String) : WState :=
  { s with buf := s.buf ++ [r] }

/-- csv.Writer.Flush: move the buffer to the sink. -/
def flushW (s : WState) : WState :=
  { s with buf := [], sink := s.sink ++ s.buf }

/-- The header row: declared names in Field Order List order. -/
def headerRow (rt : List GoField) : List String :=
  (resolveFields rt).map fun fi => fi.name

/-- Encode the record's fields in Field Order List order; each field is
fetched by name from the (non-addressable) record value and encoded by
getFieldStringValue, errors wrapped with the field name as Write does. -/
def encodeFields (rt : List GoField) (vals : List Value) :
    List FieldInfo → Except String (List String)
  | [] => .ok []
  | fi :: rest =>
    let r : Except String String :=
      match findFieldIdx rt fi.gf.fname with
      | none => .error "unsupported field type: invalid"
      | some p =>
        let gf := rt.getD p defaultGoField
        getFieldStringValue false gf.ftype (vals.getD p (kindZero gf.ftype.kind))
    match r with
    | .error e => .error ("error marshaling field " ++ fi.gf.fname ++ ": " ++ e)
    | .ok s =>
      match encodeFields rt vals rest with
      | .error e => .error e
      | .ok ss => .ok (s :: ss)

/-- Encode one record into its output row. -/
def encodeRecord (rt : List GoField) (vals : List Value) :
    Except String (List String) :=
  encodeFields rt vals (resolveFields rt)

/-- Encode a run of records, stopping at the first failure. -/
def encodeRows (rt : List GoField) :
    List (List Value) → Except String (List (List String))
  | [] => .ok []
  | r :: rs =>
    match encodeRecord rt r with
    | .error e => .error e
    | .ok row =>
      match encodeRows rt rs with
      | .error e => .error e
      | .ok rows => .ok (row :: rows)

/-- Write: emit and flush the header first if not yet written (this
happens before the record is encoded, so state changes survive an encode
error), then encode the record, emit its row and flush. -/
def writeRecord (rt : List GoField) (s : WState) (vals : List Value) :
    WState × Option String :=
  let s1 :=
    if s.headerWritten then s
    else { flushW (bufferRow s (headerRow rt)) with headerWritten := true }
  match encodeRecord rt vals with
  | .error e => (s1, some e)
  | .ok row => (flushW (bufferRow s1 row), none)

/-- WriteAll: write each record in order, stopping at the first error. -/
def writeAll (rt : List GoField) : WState → List (List Value) → WState × Option String
  | s, [] => (s, none)
  | s, r :: rs =>
    match writeRecord rt s r with
    | (s1, none) => writeAll rt s1 rs
    | (s1, some e) => (s1, some e)

/- ---------------------------------------------------------------------
Streaming claims: C5, C6, C8.
--------------------------------------------------------------------- -/

theorem runAllAux_cons (rt : List GoField) (fm : List (Nat × FieldInfo))
    (yield : Nat → List Value → Bool) (row : List String)
    (rest : List (List String)) (k : Nat) :
    runAllAux rt fm yield (row :: rest) k =
      match decodeRow rt fm row with
      | .error e => ([], .panicked e)
      | .ok t =>
        if yield k t then
          (t :: (runAllAux rt fm yield rest (k + 1)).1,
            (runAllAux rt fm yield rest (k + 1)).2)
        else ([t], .stopped) := rfl

theorem runAllAux_done (rt : List GoField) (fm : List (Nat × FieldInfo)) :
    ∀ (rows : List (List String)) (ts : List (List Value)) (k : Nat),
      decodeRows rt fm rows = .ok ts →
      runAllAux rt fm alwaysYield rows k = (ts, .done) := by
  intro rows
  induction rows with
  | nil =>
    intro ts k h
    simp only [decodeRows, Except.ok.injEq] at h
    simp [runAllAux, ← h]
  | cons r rs ih =>
    intro ts k h
    simp only [decodeRows] at h
    cases hr : decodeRow rt fm r with
    | error e => rw [hr] at h; exact absurd h (by simp)
    | ok v =>
      rw [hr] at h
      cases hrs : decodeRows rt fm rs with
      | error e => rw [hrs] at h; exact absurd h (by simp)
      | ok vs =>
        rw [hrs] at h
        simp only [Except.ok.injEq] at h
        subst h
        have hrec := ih vs (k + 1) hrs
        rw [runAllAux_cons, hr]
        simp [alwaysYield, hrec]

theorem runAllAux_panic (rt : List GoField) (fm : List (Nat × FieldInfo))
    (row : List String) (rest : List (List String)) (e : String)
    (hbad : decodeRow rt fm row = .error e) :
    ∀ (pre : List (List String)) (ts : List (List Value)) (k : Nat),
      decodeRows rt fm pre = .ok ts →
      runAllAux rt fm alwaysYield (pre ++ row :: rest) k = (ts, .panicked e) := by
  intro pre
  induction pre with
  | nil =>
    intro ts k h
    simp only [decodeRows, Except.ok.injEq] at h
    simp [runAllAux, hbad, ← h]
  | cons r rs ih =>
    intro ts k h
    simp only [decodeRows] at h
    cases hr : decodeRow rt fm r with
    | error e2 => rw [hr] at h; exact absurd h (by simp)
    | ok v =>
      rw [hr] at h
      cases hrs : decodeRows rt fm rs with
      | error e2 => rw [hrs] at h; exact absurd h (by simp)
      | ok vs =>
        rw [hrs] at h
        simp only [Except.ok.injEq] at h
        subst h
        have hrec := ih vs (k + 1) hrs
        rw [List.cons_append, runAllAux_cons, hr]
        simp [alwaysYield, hrec]

/-- C5: with a consumer that keeps pulling, a decode error terminates the
sequence at that row, the already-decoded prefix having been yielded and
the wrapped decode error surfaced through the deferred panic; and when
every row decodes, the traversal ends cleanly with no error. -/
theorem c5_decode_error_surfaced_and_clean_eof (rt : List GoField)
    (fm : List (Nat × FieldInfo)) (pre rest rows2 : List (List String))
    (row : List String) (ts ts2 : List (List Value)) (e : String)
    (h1 : decodeRows rt fm pre = .ok ts)
    (h2 : decodeRow rt fm row = .error e)
    (h3 : decodeRows rt fm rows2 = .ok ts2) :
    runAllAux rt fm alwaysYield (pre ++ row :: rest) 0 = (ts, .panicked e) ∧
      runAllAux rt fm alwaysYield rows2 0 = (ts2, .done) :=
  ⟨runAllAux_panic rt fm row rest e h2 pre ts 0 h1,
    runAllAux_done rt fm rows2 ts2 0 h3⟩

/-- C5 witness: a one-string-field record type; Age column carries a
non-integer in the failing row. -/
theorem c5_decode_error_surfaced_and_clean_eof_witness :
    runAllAux
        [{ fname := "Age", ftype := plainType .kint }]
        [(0, ⟨0, "Age", 0, { fname := "Age", ftype := plainType .kint }⟩)]
        alwaysYield [["3"], ["x"], ["9"]] 0 =
      ([[.vint 3]],
        .panicked "error setting field Age: invalid integer syntax: x") ∧
      runAllAux
        [{ fname := "Age", ftype := plainType .kint }]
        [(0, ⟨0, "Age", 0, { fname := "Age", ftype := plainType .kint }⟩)]
        alwaysYield [["3"], ["9"]] 0 =
      ([[.vint 3], [.vint 9]], .done) := by
  exact c5_decode_error_surfaced_and_clean_eof
    [{ fname := "Age", ftype := plainType .kint }]
    [(0, ⟨0, "Age", 0, { fname := "Age", ftype := plainType .kint }⟩)]
    [["3"]] [["9"]] [["3"], ["9"]] ["x"]
    [[.vint 3]] [[.vint 3], [.vint 9]]
    "error setting field Age: invalid integer syntax: x"
    (by rfl) (by rfl) (by rfl)

theorem runAllAux_stop (rt : List GoField) (fm : List (Nat × FieldInfo))
    (post : List (List String)) :
    ∀ (pre : List (List String)) (ts : List (List Value)) (k m : Nat),
      pre ≠ [] → m = k + pre.length →
      decodeRows rt fm pre = .ok ts →
      runAllAux rt fm (fun i _ => i + 1 < m) (pre ++ post) k = (ts, .stopped) := by
  intro pre
  induction pre with
  | nil => intro ts k m hne; exact absurd rfl hne
  | cons r rs ih =>
    intro ts k m hne hm h
    simp only [decodeRows] at h
    cases hr : decodeRow rt fm r with
    | error e => rw [hr] at h; exact absurd h (by simp)
    | ok v =>
      rw [hr] at h
      cases hrs : decodeRows rt fm rs with
      | error e => rw [hrs] at h; exact absurd h (by simp)
      | ok vs =>
        rw [hrs] at h
        simp only [Except.ok.injEq] at h
        subst h
        cases rs with
        | nil =>
          simp only [decodeRows, Except.ok.injEq] at hrs
          subst hrs
          have hm1 : m = k + 1 := by simp [hm]
          rw [List.cons_append, runAllAux_cons, hr]
          simp [hm1]
        | cons r2 rs2 =>
          have hyield : k + 1 < m := by
            simp only [List.length_cons] at hm
            omega
          have hrec := ih vs (k + 1) m (by simp)
            (by simp only [List.length_cons] at hm ⊢; omega) hrs
          rw [List.cons_append] at hrec
          rw [List.cons_append, runAllAux_cons, hr]
          simp [hyield, hrec]

/-- C6: a consumer that stops after the first n records (returning false
at record n) makes the traversal end in the clean stopped state with no
error, whatever rows — including undecodable ones — follow. -/
theorem c6_early_stop_clean (rt : List GoField) (fm : List (Nat × FieldInfo))
    (pre post : List (List String)) (ts : List (List Value))
    (hne : pre ≠ []) (h : decodeRows rt fm pre = .ok ts) :
    runAllAux rt fm (stopAt pre.length) (pre ++ post) 0 = (ts, .stopped) :=
  runAllAux_stop rt fm post pre ts 0 pre.length hne (by omega) h

/-- C6 witness: stop after one record while the next row would fail to
decode. -/
theorem c6_early_stop_clean_witness :
    runAllAux
        [{ fname := "Age", ftype := plainType .kint }]
        [(0, ⟨0, "Age", 0, { fname := "Age", ftype := plainType .kint }⟩)]
        (stopAt 1) [["3"], ["x"]] 0 = ([[.vint 3]], .stopped) := by
  exact c6_early_stop_clean
    [{ fname := "Age", ftype := plainType .kint }]
    [(0, ⟨0, "Age", 0, { fname := "Age", ftype := plainType .kint }⟩)]
    [["3"]] [["x"]] [[.vint 3]] (by simp) (by rfl)

/-- C8: wholly empty rows never reach the decode loop — inserting one
anywhere in the source changes nothing — and the streamed sequence equals
the decoding of the non-empty rows alone. -/
theorem c8_blank_rows_skipped (rt : List GoField) (fm : List (Nat × FieldInfo))
    (yield : Nat → List Value → Bool) (rows1 rows2 rows : List (List String)) :
    streamRecords rt fm (rows1 ++ [] :: rows2) yield =
        streamRecords rt fm (rows1 ++ rows2) yield ∧
      streamRecords rt fm rows yield =
        runAllAux rt fm yield (rows.filter fun r => !r.isEmpty) 0 := by
  constructor
  · simp [streamRecords, tokenizeRows, List.filter_append]
  · rfl

/- ---------------------------------------------------------------------
Claim C7: single header row, emitted and flushed first.
--------------------------------------------------------------------- -/

theorem writeAll_cons (rt : List GoField) (s : WState) (r : List Value)
    (rs : List (List Value)) :
    writeAll rt s (r :: rs) =
      match writeRecord rt s r with
      | (s1, none) => writeAll rt s1 rs
      | (s1, some e) => (s1, some e) := rfl

theorem writeAll_headerWritten (rt : List GoField) :
    ∀ (rs : List (List Value)) (sink l : List (List String)),
      encodeRows rt rs = .ok l →
      writeAll rt ⟨true, [], sink⟩ rs = (⟨true, [], sink ++ l⟩, none) := by
  intro rs
  induction rs with
  | nil =>
    intro sink l h
    simp only [encodeRows, Except.ok.injEq] at h
    simp [writeAll, ← h]
  | cons r rest ih =>
    intro sink l h
    simp only [encodeRows] at h
    cases he : encodeRecord rt r with
    | error e => rw [he] at h; exact absurd h (by simp)
    | ok row =>
      rw [he] at h
      cases hrest : encodeRows rt rest with
      | error e => rw [hrest] at h; exact absurd h (by simp)
      | ok lrest =>
        rw [hrest] at h
        simp only [Except.ok.injEq] at h
        subst h
        rw [writeAll_cons]
        have hw : writeRecord rt ⟨true, [], sink⟩ r =
            (⟨true, [], sink ++ [row]⟩, none) := by
          simp [writeRecord, he, flushW, bufferRow]
        rw [hw]
        dsimp only
        have := ih (sink ++ [row]) lrest hrest
        rw [this]
        simp

theorem writeAll_fresh (rt : List GoField) (rs : List (List Value))
    (l : List (List String)) (hne : rs ≠ [])
    (h : encodeRows rt rs = .ok l) :
    writeAll rt initWriter rs = (⟨true, [], headerRow rt :: l⟩, none) := by
  cases rs with
  | nil => exact absurd rfl hne
  | cons r rest =>
    simp only [encodeRows] at h
    cases he : encodeRecord rt r with
    | error e => rw [he] at h; exact absurd h (by simp)
    | ok row =>
      rw [he] at h
      cases hrest : encodeRows rt rest with
      | error e => rw [hrest] at h; exact absurd h (by simp)
      | ok lrest =>
        rw [hrest] at h
        simp only [Except.ok.injEq] at h
        subst h
        rw [writeAll_cons]
        have hw : writeRecord rt initWriter r =
            (⟨true, [], [headerRow rt, row]⟩, none) := by
          simp [writeRecord, initWriter, he, flushW, bufferRow]
        rw [hw]
        dsimp only
        have := writeAll_headerWritten rt rest [headerRow rt, row] lrest hrest
        rw [this]
        simp

/-- C7: a nonempty run of successful writes on a fresh Writer emits the
header row (the declared names in Field Order List order) exactly once,
flushed to the sink before any data row, every later write adding only
its encoded data row. -/
theorem c7_single_header_first (rt : List GoField) (rs : List (List Value))
    (l : List (List String)) (hne : rs ≠ [])
    (h : encodeRows rt rs = .ok l) :
    writeAll rt initWriter rs = (⟨true, [], headerRow rt :: l⟩, none) :=
  writeAll_fresh rt rs l hne h

/-- C7 witness: two writes of a one-field record type. -/
theorem c7_single_header_first_witness :
    writeAll [{ fname := "Age", ftype := plainType .kint }] initWriter
        [[.vint 3], [.vint 4]] =
      (⟨true, [], [["Age"], ["3"], ["4"]]⟩, none) := by
  exact c7_single_header_first
    [{ fname := "Age", ftype := plainType .kint }]
    [[.vint 3], [.vint 4]] [["3"], ["4"]] (by simp) (by rfl)

/- ---------------------------------------------------------------------
Resolver and column-mapping lemmas.
--------------------------------------------------------------------- -/

theorem insertByIndex_perm (x : FieldInfo) (l : List FieldInfo) :
    (insertByIndex x l).Perm (x :: l) := by
  induction l with
  | nil => exact List.Perm.refl _
  | cons y ys ih =>
    by_cases h : y.index ≤ x.index
    · simp only [insertByIndex, if_pos h]
      exact (ih.cons y).trans (List.Perm.swap x y ys)
    · simp only [insertByIndex, if_neg h]
      exact List.Perm.refl _

theorem sortFields_perm (l : List FieldInfo) : (sortFields l).Perm l := by
  induction l with
  | nil => exact List.Perm.refl _
  | cons x xs ih =>
    exact (insertByIndex_perm x (sortFields xs)).trans (ih.cons x)

theorem sortFields_mem {l : List FieldInfo} {fi : FieldInfo} :
    fi ∈ sortFields l ↔ fi ∈ l :=
  (sortFields_perm l).mem_iff

theorem assignIndexes_mem :
    ∀ (l : List FieldInfo) (next : Int) (fi : FieldInfo),
      fi ∈ assignIndexes l next →
      ∃ fj ∈ l, fi.pos = fj.pos ∧ fi.name = fj.name ∧ fi.gf = fj.gf := by
  intro l
  induction l with
  | nil => intro next fi h; exact absurd h (by simp [assignIndexes])
  | cons x xs ih =>
    intro next fi h
    by_cases hx : x.index = (x.pos : Int)
    · simp only [assignIndexes, if_pos hx, List.mem_cons] at h
      rcases h with h | h
      · exact ⟨x, List.mem_cons_self x xs, by simp [h]⟩
      · obtain ⟨fj, hm, he⟩ := ih (next + 1) fi h
        exact ⟨fj, List.mem_cons_of_mem x hm, he⟩
    · simp only [assignIndexes, if_neg hx, List.mem_cons] at h
      rcases h with h | h
      · exact ⟨x, List.mem_cons_self x xs, by simp [h]⟩
      · obtain ⟨fj, hm, he⟩ := ih next fi h
        exact ⟨fj, List.mem_cons_of_mem x hm, he⟩

theorem assignIndexes_map_pos :
    ∀ (l : List FieldInfo) (next : Int),
      (assignIndexes l next).map (fun fi => fi.pos) = l.map fun fi => fi.pos := by
  intro l
  induction l with
  | nil => intro next; rfl
  | cons x xs ih =>
    intro next
    by_cases hx : x.index = (x.pos : Int) <;>
      simp [assignIndexes, hx, ih]

theorem collectFields_mem :
    ∀ (fs : List GoField) (i : Nat) (fi : FieldInfo),
      fi ∈ (collectFields fs i).1 →
      ∃ j, fi.pos = i + j ∧ fs[j]? = some fi.gf ∧ fi.name = declName fi.gf ∧
        fi.gf.skip = false := by
  intro fs
  induction fs with
  | nil => intro i fi h; exact absurd h (by simp [collectFields])
  | cons f fs ih =>
    intro i fi h
    by_cases hs : f.skip
    · simp only [collectFields, if_pos hs] at h
      obtain ⟨j, hp, hg, hn, hsk⟩ := ih (i + 1) fi h
      exact ⟨j + 1, by omega, by simpa using hg, hn, hsk⟩
    · simp only [collectFields, if_neg hs, List.mem_cons] at h
      rcases h with h | h
      · refine ⟨0, ?_, ?_, ?_, ?_⟩ <;> simp [h, hs]
      · obtain ⟨j, hp, hg, hn, hsk⟩ := ih (i + 1) fi h
        exact ⟨j + 1, by omega, by simpa using hg, hn, hsk⟩

theorem collectFields_pos_lb (fs : List GoField) (i : Nat) (fi : FieldInfo)
    (h : fi ∈ (collectFields fs i).1) : i ≤ fi.pos := by
  obtain ⟨j, hp, -⟩ := collectFields_mem fs i fi h
  omega

theorem collectFields_pos_pairwise :
    ∀ (fs : List GoField) (i : Nat),
      ((collectFields fs i).1).Pairwise fun a b => a.pos < b.pos := by
  intro fs
  induction fs with
  | nil => intro i; simp [collectFields]
  | cons f fs ih =>
    intro i
    by_cases hs : f.skip
    · simpa only [collectFields, if_pos hs] using ih (i + 1)
    · simp only [collectFields, if_neg hs]
      refine List.Pairwise.cons ?_ (ih (i + 1))
      intro b hb
      have := collectFields_pos_lb fs (i + 1) b hb
      simpa using by omega

theorem resolveFields_mem {rt : List GoField} {fi : FieldInfo}
    (h : fi ∈ resolveFields rt) :
    rt[fi.pos]? = some fi.gf ∧ fi.name = declName fi.gf ∧ fi.gf.skip = false := by
  have h1 : fi ∈ assignIndexes (collectFields rt 0).1 ((collectFields rt 0).2 + 1) := by
    simpa [resolveFields] using sortFields_mem.mp (by simpa [resolveFields] using h)
  obtain ⟨fj, hm, hpos, hname, hgf⟩ :=
    assignIndexes_mem _ _ fi h1
  obtain ⟨j, hp, hg, hn, hsk⟩ := collectFields_mem rt 0 fj hm
  have hj : fi.pos = j := by omega
  rw [hj, hgf, hname]
  exact ⟨hg, hn, hsk⟩

theorem resolveFields_pos_nodup (rt : List GoField) :
    ((resolveFields rt).map fun fi => fi.pos).Nodup := by
  have h1 : ((collectFields rt 0).1.map fun fi => fi.pos).Nodup := by
    have := collectFields_pos_pairwise rt 0
    have hp : ((collectFields rt 0).1.map fun fi => fi.pos).Pairwise (· < ·) :=
      List.Pairwise.map _ (fun a b h => h) this
    exact hp.imp Nat.ne_of_lt
  have h2 : ((assignIndexes (collectFields rt 0).1 ((collectFields rt 0).2 + 1)).map
      fun fi => fi.pos).Nodup := by
    rwa [assignIndexes_map_pos]
  have hperm := (sortFields_perm
    (assignIndexes (collectFields rt 0).1 ((collectFields rt 0).2 + 1))).map
      fun fi => fi.pos
  exact (hperm.nodup_iff).mpr h2

theorem resolveFields_pos_inj {rt : List GoField} {fi fj : FieldInfo}
    (hi : fi ∈ resolveFields rt) (hj : fj ∈ resolveFields rt)
    (h : fi.pos = fj.pos) : fi = fj :=
  List.inj_on_of_nodup_map (resolveFields_pos_nodup rt) hi hj h

theorem headerMapGo_sound :
    ∀ (headers : List String) (i : Nat) (s : String) (j : Nat),
      headerMapGo i headers s = some j →
      ∃ k h, headers[k]? = some h ∧ trimGo h = s ∧ j = i + k := by
  intro headers
  induction headers with
  | nil => intro i s j h; exact absurd h (by simp [headerMapGo])
  | cons hd rest ih =>
    intro i s j h
    simp only [headerMapGo] at h
    cases hr : headerMapGo (i + 1) rest s with
    | some j2 =>
      rw [hr] at h
      simp only [Option.some.injEq] at h
      obtain ⟨k, hh, hg, ht, hk⟩ := ih (i + 1) s j2 hr
      exact ⟨k + 1, hh, by simpa using hg, ht, by omega⟩
    | none =>
      rw [hr] at h
      by_cases he : s = trimGo hd
      · rw [if_pos he] at h
        simp only [Option.some.injEq] at h
        exact ⟨0, hd, by simp, he.symm, by omega⟩
      · rw [if_neg he] at h
        exact absurd h (by simp)

theorem buildFieldMap_sound (hm : String → Option Nat) :
    ∀ (l : List FieldInfo) (m : List (Nat × FieldInfo)) (idx : Nat) (fi : FieldInfo),
      fmLookup (buildFieldMap hm l m) idx = some fi →
      (fi ∈ l ∧ hm fi.name = some idx) ∨ fmLookup m idx = some fi := by
  intro l
  induction l with
  | nil => intro m idx fi h; exact Or.inr h
  | cons f rest ih =>
    intro m idx fi h
    simp only [buildFieldMap] at h
    cases hf : hm f.name with
    | some id2 =>
      rw [hf] at h
      rcases ih _ idx fi h with ⟨hmem, hh⟩ | hbase
      · exact Or.inl ⟨List.mem_cons_of_mem f hmem, hh⟩
      · simp only [fmLookup] at hbase
        by_cases he : idx = id2
        · rw [if_pos he] at hbase
          simp only [Option.some.injEq] at hbase
          subst hbase
          exact Or.inl ⟨List.mem_cons_self f rest, by rw [hf, he]⟩
        · rw [if_neg he] at hbase
          exact Or.inr hbase
    | none =>
      rw [hf] at h
      rcases ih _ idx fi h with ⟨hmem, hh⟩ | hbase
      · exact Or.inl ⟨List.mem_cons_of_mem f hmem, hh⟩
      · exact Or.inr hbase

theorem createFieldMap_sound {headers : List String} {rt : List GoField}
    {idx : Nat} {fi : FieldInfo}
    (h : fmLookup (createFieldMap headers rt) idx = some fi) :
    fi ∈ resolveFields rt ∧ headerMapGo 0 headers fi.name = some idx := by
  rcases buildFieldMap_sound _ _ _ _ _ h with ⟨hm, hh⟩ | hbase
  · exact ⟨hm, hh⟩
  · exact absurd hbase (by simp [fmLookup])

theorem findFieldIdx_sound :
    ∀ (rt : List GoField) (nm : String) (p : Nat),
      findFieldIdx rt nm = some p →
      ∃ f, rt[p]? = some f ∧ f.fname = nm := by
  intro rt
  induction rt with
  | nil => intro nm p h; exact absurd h (by simp [findFieldIdx])
  | cons g gs ih =>
    intro nm p h
    simp only [findFieldIdx] at h
    by_cases hg : g.fname = nm
    · rw [if_pos hg] at h
      simp only [Option.some.injEq] at h
      exact ⟨g, by simp [← h], hg⟩
    · rw [if_neg hg] at h
      cases hr : findFieldIdx gs nm with
      | none => rw [hr] at h; exact absurd h (by simp)
      | some q =>
        rw [hr] at h
        simp only [Option.map_some', Option.some.injEq] at h
        obtain ⟨f, hgf, hf⟩ := ih nm q hr
        exact ⟨f, by simpa [← h] using hgf, hf⟩

theorem findFieldIdx_of_getElem? :
    ∀ (rt : List GoField), ((rt.map fun f => f.fname).Nodup) →
      ∀ (p : Nat) (f : GoField), rt[p]? = some f →
        findFieldIdx rt f.fname = some p := by
  intro rt
  induction rt with
  | nil => intro _ p f h; exact absurd h (by simp)
  | cons g gs ih =>
    intro hnod p f h
    simp only [List.map_cons, List.nodup_cons] at hnod
    obtain ⟨hnotin, hnod2⟩ := hnod
    cases p with
    | zero =>
      simp only [List.getElem?_cons_zero, Option.some.injEq] at h
      subst h
      simp [findFieldIdx]
    | succ q =>
      simp only [List.getElem?_cons_succ] at h
      have hfmem : f ∈ gs := List.mem_iff_getElem?.mpr ⟨q, h⟩
      have hne : g.fname ≠ f.fname := by
        intro he
        exact hnotin (he ▸ List.mem_map_of_mem (fun x => x.fname) hfmem)
      simp only [findFieldIdx, if_neg hne, ih hnod2 q f h, Option.map_some']

theorem withIdx_append (l1 l2 : List α) :
    ∀ k, withIdx k (l1 ++ l2) = withIdx k l1 ++ withIdx (k + l1.length) l2 := by
  induction l1 with
  | nil => intro k; simp [withIdx]
  | cons x xs ih =>
    intro k
    show (k, x) :: withIdx (k + 1) (xs ++ l2) =
      ((k, x) :: withIdx (k + 1) xs) ++ withIdx (k + (x :: xs).length) l2
    rw [ih (k + 1), List.cons_append]
    have he : k + 1 + xs.length = k + (x :: xs).length := by
      simp only [List.length_cons]
      omega
    rw [he]

theorem withIdx_mem :
    ∀ (l : List α) (k : Nat) (c : Nat × α), c ∈ withIdx k l →
      k ≤ c.1 ∧ c.1 - k < l.length ∧ l[c.1 - k]? = some c.2 := by
  intro l
  induction l with
  | nil => intro k c h; exact absurd h (by simp [withIdx])
  | cons x xs ih =>
    intro k c h
    simp only [withIdx, List.mem_cons] at h
    rcases h with h | h
    · subst h
      simp
    · obtain ⟨h1, h2, h3⟩ := ih (k + 1) c h
      refine ⟨by omega, by simp; omega, ?_⟩
      have he : c.1 - k = (c.1 - (k + 1)) + 1 := by omega
      rw [he]
      simpa using h3

/-- Two distinct columns of the Column Mapping can never target the same
struct field: each field is inserted under the single header index its
declared name resolves to. -/
theorem createFieldMap_target_unique {rt : List GoField} {headers : List String}
    {idx1 idx2 p : Nat} {fi1 fi2 : FieldInfo}
    (hnod : (rt.map fun f => f.fname).Nodup)
    (h1 : fmLookup (createFieldMap headers rt) idx1 = some fi1)
    (h2 : fmLookup (createFieldMap headers rt) idx2 = some fi2)
    (hp1 : findFieldIdx rt fi1.gf.fname = some p)
    (hp2 : findFieldIdx rt fi2.gf.fname = some p) : idx1 = idx2 := by
  obtain ⟨hm1, hh1⟩ := createFieldMap_sound h1
  obtain ⟨hm2, hh2⟩ := createFieldMap_sound h2
  obtain ⟨hg1, -, -⟩ := resolveFields_mem hm1
  obtain ⟨hg2, -, -⟩ := resolveFields_mem hm2
  have hf1 : findFieldIdx rt fi1.gf.fname = some fi1.pos :=
    findFieldIdx_of_getElem? rt hnod fi1.pos fi1.gf hg1
  have hf2 : findFieldIdx rt fi2.gf.fname = some fi2.pos :=
    findFieldIdx_of_getElem? rt hnod fi2.pos fi2.gf hg2
  have hpos1 : fi1.pos = p := by
    have := hf1.symm.trans hp1
    simpa using this
  have hpos2 : fi2.pos = p := by
    have := hf2.symm.trans hp2
    simpa using this
  have : fi1 = fi2 := resolveFields_pos_inj hm1 hm2 (by omega)
  subst this
  have := hh1.symm.trans hh2
  simpa using this

theorem decodeRowAux_length (rt : List GoField) (fm : List (Nat × FieldInfo)) :
    ∀ (cells : List (Nat × String)) (vals vals' : List Value),
      decodeRowAux rt fm cells vals = .ok vals' → vals'.length = vals.length := by
  intro cells
  induction cells with
  | nil =>
    intro vals vals' h
    simp only [decodeRowAux, Except.ok.injEq] at h
    rw [← h]
  | cons c rest ih =>
    intro vals vals' h
    simp only [decodeRowAux] at h
    cases hl : fmLookup fm c.1 with
    | none => rw [hl] at h; exact ih vals vals' h
    | some fi =>
      rw [hl] at h
      dsimp only at h
      cases hc : decodeCell rt vals fi c.2 with
      | error e => rw [hc] at h; exact absurd h (by simp)
      | ok mid =>
        rw [hc] at h
        have hlen : mid.length = vals.length := by
          simp only [decodeCell] at hc
          cases hfp : findFieldIdx rt fi.gf.fname with
          | none =>
            rw [hfp] at hc
            simp only [Except.ok.injEq] at hc
            rw [← hc]
          | some p =>
            rw [hfp] at hc
            dsimp only at hc
            cases hs : setFieldValue true
                (vals.getD p (kindZero (rt.getD p defaultGoField).ftype.kind))
                (rt.getD p defaultGoField).ftype c.2 with
            | error e => rw [hs] at hc; exact absurd hc (by simp)
            | ok w =>
              rw [hs] at hc
              simp only [Except.ok.injEq] at hc
              rw [← hc, List.length_set]
        rw [ih mid vals' h, hlen]

theorem decodeRowAux_untouched (rt : List GoField) (fm : List (Nat × FieldInfo)) :
    ∀ (cells : List (Nat × String)) (vals vals' : List Value) (p : Nat),
      (∀ c ∈ cells, ∀ fi, fmLookup fm c.1 = some fi →
        findFieldIdx rt fi.gf.fname ≠ some p) →
      decodeRowAux rt fm cells vals = .ok vals' → vals'[p]? = vals[p]? := by
  intro cells
  induction cells with
  | nil =>
    intro vals vals' p _ h
    simp only [decodeRowAux, Except.ok.injEq] at h
    rw [← h]
  | cons c rest ih =>
    intro vals vals' p hno h
    simp only [decodeRowAux] at h
    cases hl : fmLookup fm c.1 with
    | none =>
      rw [hl] at h
      exact ih vals vals' p (fun c2 hc2 => hno c2 (List.mem_cons_of_mem c hc2)) h
    | some fi =>
      rw [hl] at h
      dsimp only at h
      cases hc : decodeCell rt vals fi c.2 with
      | error e => rw [hc] at h; exact absurd h (by simp)
      | ok mid =>
        rw [hc] at h
        have hmid : mid[p]? = vals[p]? := by
          simp only [decodeCell] at hc
          cases hfp : findFieldIdx rt fi.gf.fname with
          | none =>
            rw [hfp] at hc
            simp only [Except.ok.injEq] at hc
            rw [← hc]
          | some q =>
            have hq : q ≠ p := by
              intro he
              exact hno c (List.mem_cons_self c rest) fi hl (by rw [hfp, he])
            rw [hfp] at hc
            dsimp only at hc
            cases hs : setFieldValue true
                (vals.getD q (kindZero (rt.getD q defaultGoField).ftype.kind))
                (rt.getD q defaultGoField).ftype c.2 with
            | error e => rw [hs] at hc; exact absurd hc (by simp)
            | ok w =>
              rw [hs] at hc
              simp only [Except.ok.injEq] at hc
              rw [← hc]
              exact List.getElem?_set_ne hq
        rw [ih mid vals' p (fun c2 hc2 => hno c2 (List.mem_cons_of_mem c hc2)) h,
          hmid]

theorem decodeRowAux_append (rt : List GoField) (fm : List (Nat × FieldInfo)) :
    ∀ (c1 c2 : List (Nat × String)) (vals vals' : List Value),
      decodeRowAux rt fm (c1 ++ c2) vals = .ok vals' →
      ∃ mid, decodeRowAux rt fm c1 vals = .ok mid ∧
        decodeRowAux rt fm c2 mid = .ok vals' := by
  intro c1
  induction c1 with
  | nil =>
    intro c2 vals vals' h
    exact ⟨vals, rfl, h⟩
  | cons c rest ih =>
    intro c2 vals vals' h
    simp only [List.cons_append, decodeRowAux] at h ⊢
    cases hl : fmLookup fm c.1 with
    | none =>
      rw [hl] at h
      exact ih c2 vals vals' h
    | some fi =>
      rw [hl] at h
      dsimp only at h ⊢
      cases hc : decodeCell rt vals fi c.2 with
      | error e => rw [hc] at h; exact absurd h (by simp)
      | ok mid =>
        rw [hc] at h
        exact ih c2 mid vals' h

theorem setFieldValue_isOk (a : Bool) (t : FType) (s : String) (old old' : Value) :
    (setFieldValue a old t s).isOk = (setFieldValue a old' t s).isOk := by
  cases hu : t.unmarshalVal with
  | some h =>
    simp only [setFieldValue, hu]
    cases h s <;> rfl
  | none => simp only [setFieldValue, hu]

theorem decodeRowAux_isOk (rt : List GoField) (fm : List (Nat × FieldInfo)) :
    ∀ (cells : List (Nat × String)) (vals : List Value),
      (∀ c ∈ cells, ∀ fi, fmLookup fm c.1 = some fi →
        ∀ p, findFieldIdx rt fi.gf.fname = some p →
          (setFieldValue true (kindZero (rt.getD p defaultGoField).ftype.kind)
            (rt.getD p defaultGoField).ftype c.2).isOk = true) →
      ∃ vals', decodeRowAux rt fm cells vals = .ok vals' := by
  intro cells
  induction cells with
  | nil => intro vals _; exact ⟨vals, rfl⟩
  | cons c rest ih =>
    intro vals hok
    simp only [decodeRowAux]
    cases hl : fmLookup fm c.1 with
    | none => exact ih vals fun c2 hc2 => hok c2 (List.mem_cons_of_mem c hc2)
    | some fi =>
      have hcell : ∃ mid, decodeCell rt vals fi c.2 = .ok mid := by
        simp only [decodeCell]
        cases hfp : findFieldIdx rt fi.gf.fname with
        | none => exact ⟨vals, rfl⟩
        | some p =>
          dsimp only
          have h1 := hok c (List.mem_cons_self c rest) fi hl p hfp
          have h2 := setFieldValue_isOk true (rt.getD p defaultGoField).ftype c.2
            (kindZero (rt.getD p defaultGoField).ftype.kind)
            (vals.getD p (kindZero (rt.getD p defaultGoField).ftype.kind))
          rw [h1] at h2
          cases hs : setFieldValue true
              (vals.getD p (kindZero (rt.getD p defaultGoField).ftype.kind))
              (rt.getD p defaultGoField).ftype c.2 with
          | error e =>
            rw [hs] at h2
            simp [Except.isOk, Except.toBool] at h2
          | ok w => exact ⟨vals.set p w, rfl⟩
      obtain ⟨mid, hmid⟩ := hcell
      dsimp only
      rw [hmid]
      exact ih mid fun c2 hc2 => hok c2 (List.mem_cons_of_mem c hc2)

theorem decodeRowAux_single (rt : List GoField) (fm : List (Nat × FieldInfo))
    (c1 c2 : List (Nat × String)) (idx p : Nat) (s : String) (fi : FieldInfo)
    (vals vals' : List Value)
    (hfi : fmLookup fm idx = some fi)
    (hp : findFieldIdx rt fi.gf.fname = some p)
    (hplen : p < vals.length)
    (h1 : ∀ c ∈ c1, ∀ fj, fmLookup fm c.1 = some fj →
      findFieldIdx rt fj.gf.fname ≠ some p)
    (h2 : ∀ c ∈ c2, ∀ fj, fmLookup fm c.1 = some fj →
      findFieldIdx rt fj.gf.fname ≠ some p)
    (hok : decodeRowAux rt fm (c1 ++ (idx, s) :: c2) vals = .ok vals') :
    ∃ w, setFieldValue true
        (vals.getD p (kindZero (rt.getD p defaultGoField).ftype.kind))
        (rt.getD p defaultGoField).ftype s = .ok w ∧ vals'[p]? = some w := by
  obtain ⟨mid, hmid, hrest⟩ := decodeRowAux_append rt fm c1 _ vals vals' hok
  have hmp : mid[p]? = vals[p]? := decodeRowAux_untouched rt fm c1 vals mid p h1 hmid
  have hmlen : mid.length = vals.length := decodeRowAux_length rt fm c1 vals mid hmid
  simp only [decodeRowAux, hfi] at hrest
  cases hc : decodeCell rt mid fi s with
  | error e => rw [hc] at hrest; exact absurd hrest (by simp)
  | ok mid2 =>
    rw [hc] at hrest
    simp only [decodeCell, hp] at hc
    have hgetD : mid.getD p (kindZero (rt.getD p defaultGoField).ftype.kind) =
        vals.getD p (kindZero (rt.getD p defaultGoField).ftype.kind) := by
      simp only [List.getD_eq_getElem?_getD, hmp]
    rw [hgetD] at hc
    cases hs : setFieldValue true
        (vals.getD p (kindZero (rt.getD p defaultGoField).ftype.kind))
        (rt.getD p defaultGoField).ftype s with
    | error e => rw [hs] at hc; exact absurd hc (by simp)
    | ok w =>
      rw [hs] at hc
      simp only [Except.ok.injEq] at hc
      refine ⟨w, rfl, ?_⟩
      have hv : vals'[p]? = mid2[p]? :=
        decodeRowAux_untouched rt fm c2 mid2 vals' p h2 hrest
      rw [hv, ← hc]
      exact List.getElem?_set_self (by omega)

theorem zeroRecord_length (rt : List GoField) :
    (zeroRecord rt).length = rt.length := by
  simp [zeroRecord]

theorem zeroRecord_getElem? (rt : List GoField) (p : Nat) (h : p < rt.length) :
    (zeroRecord rt)[p]? = some (kindZero (rt.getD p defaultGoField).ftype.kind) := by
  simp [zeroRecord, List.getElem?_map, List.getElem?_eq_getElem h,
    List.getD_eq_getElem?_getD]

theorem zeroRecord_getD (rt : List GoField) (p : Nat) (d : Value)
    (h : p < rt.length) :
    (zeroRecord rt).getD p d = kindZero (rt.getD p defaultGoField).ftype.kind := by
  rw [List.getD_eq_getElem?_getD, zeroRecord_getElem? rt p h]
  rfl

/-- A two-field record type used by concrete runs. -/
def rtP : List GoField :=
  [ { fname := "Name", ftype := plainType .kstr },
    { fname := "Age", ftype := plainType .kint } ]

/-- C3: for every (columnIndex, field) pair of the Column Mapping, a cell
within the row's bounds is decoded through the Value Codec into that
field (starting from the field's zero value), a column index beyond the
row's bounds leaves the field at its kind's zero value, and a row whose
in-bounds mapped cells all decode still produces an output record with no
error. -/
theorem c3_row_bounds_zero_value (rt : List GoField) (headers row : List String)
    (vals : List Value) (idx p : Nat) (fi : FieldInfo)
    (hnod : (rt.map fun f => f.fname).Nodup)
    (hfi : fmLookup (createFieldMap headers rt) idx = some fi)
    (hp : findFieldIdx rt fi.gf.fname = some p) :
    (decodeRow rt (createFieldMap headers rt) row = .ok vals →
      ((idx < row.length →
        ∃ w, setFieldValue true (kindZero (rt.getD p defaultGoField).ftype.kind)
            (rt.getD p defaultGoField).ftype (row.getD idx "") = .ok w ∧
          vals[p]? = some w) ∧
      (row.length ≤ idx →
        vals[p]? = some (kindZero (rt.getD p defaultGoField).ftype.kind)))) ∧
    ((∀ j, j < row.length → ∀ fj,
        fmLookup (createFieldMap headers rt) j = some fj →
        ∀ q, findFieldIdx rt fj.gf.fname = some q →
          (setFieldValue true (kindZero (rt.getD q defaultGoField).ftype.kind)
            (rt.getD q defaultGoField).ftype (row.getD j "")).isOk = true) →
      ∃ vals0, decodeRow rt (createFieldMap headers rt) row = .ok vals0) := by
  obtain ⟨f0, hf0, -⟩ := findFieldIdx_sound rt fi.gf.fname p hp
  have hplen : p < rt.length := by
    rcases List.getElem?_eq_some.mp hf0 with ⟨hh, -⟩
    exact hh
  have hnotouch : ∀ (c : Nat × String), c.1 ≠ idx → ∀ fj,
      fmLookup (createFieldMap headers rt) c.1 = some fj →
      findFieldIdx rt fj.gf.fname ≠ some p := by
    intro c hne fj hfj hcp
    exact hne (createFieldMap_target_unique hnod hfj hfi hcp hp)
  constructor
  · intro hok
    constructor
    · intro hlt
      have hrow : row = row.take idx ++ (row.getD idx "" :: row.drop (idx + 1)) := by
        have h1 := List.take_append_drop idx row
        have h2 : row.drop idx = row[idx] :: row.drop (idx + 1) :=
          List.drop_eq_getElem_cons hlt
        have h3 : row.getD idx "" = row[idx] := by
          rw [List.getD_eq_getElem?_getD, List.getElem?_eq_getElem hlt]
          rfl
        rw [h3, ← h2, h1]
      have hcells : withIdx 0 row =
          withIdx 0 (row.take idx) ++
            ((idx, row.getD idx "") :: withIdx (idx + 1) (row.drop (idx + 1))) := by
        conv_lhs => rw [hrow]
        rw [withIdx_append]
        have hlen : (row.take idx).length = idx := by
          simp [List.length_take]
          omega
        rw [hlen, Nat.zero_add]
        rfl
      rw [decodeRow, hcells] at hok
      have h1 : ∀ c ∈ withIdx 0 (row.take idx), ∀ fj,
          fmLookup (createFieldMap headers rt) c.1 = some fj →
          findFieldIdx rt fj.gf.fname ≠ some p := by
        intro c hc fj
        obtain ⟨-, hlt2, -⟩ := withIdx_mem _ 0 c hc
        have : c.1 < idx := by
          have hlen : (row.take idx).length = idx := by
            simp [List.length_take]; omega
          omega
        exact hnotouch c (by omega) fj
      have h2 : ∀ c ∈ withIdx (idx + 1) (row.drop (idx + 1)), ∀ fj,
          fmLookup (createFieldMap headers rt) c.1 = some fj →
          findFieldIdx rt fj.gf.fname ≠ some p := by
        intro c hc fj
        obtain ⟨hge, -, -⟩ := withIdx_mem _ (idx + 1) c hc
        exact hnotouch c (by omega) fj
      obtain ⟨w, hw, hwp⟩ := decodeRowAux_single rt (createFieldMap headers rt)
        _ _ idx p (row.getD idx "") fi (zeroRecord rt) vals hfi hp
        (by rw [zeroRecord_length]; exact hplen) h1 h2 hok
      rw [zeroRecord_getD rt p _ hplen] at hw
      exact ⟨w, hw, hwp⟩
    · intro hge
      have hall : ∀ c ∈ withIdx 0 row, ∀ fj,
          fmLookup (createFieldMap headers rt) c.1 = some fj →
          findFieldIdx rt fj.gf.fname ≠ some p := by
        intro c hc fj
        obtain ⟨-, hlt2, -⟩ := withIdx_mem _ 0 c hc
        exact hnotouch c (by omega) fj
      have := decodeRowAux_untouched rt (createFieldMap headers rt)
        (withIdx 0 row) (zeroRecord rt) vals p hall hok
      rw [this, zeroRecord_getElem? rt p hplen]
  · intro hsucc
    refine decodeRowAux_isOk rt (createFieldMap headers rt) (withIdx 0 row)
      (zeroRecord rt) ?_
    intro c hc fj hfj q hq
    obtain ⟨-, hlt2, hget⟩ := withIdx_mem _ 0 c hc
    have hc2 : row.getD c.1 "" = c.2 := by
      have : c.1 - 0 = c.1 := by omega
      rw [this] at hget
      rw [List.getD_eq_getElem?_getD, hget]
      rfl
    have := hsucc c.1 (by omega) fj hfj q hq
    rwa [hc2] at this

/-- C3 witness: a two-field record type with a short one-cell row; the
Name column decodes, the Age column is beyond the row's bounds. -/
theorem c3_row_bounds_zero_value_witness :
    decodeRow rtP (createFieldMap ["Name", "Age"] rtP) ["Alice"] =
        .ok [.vstr "Alice", .vint 0] ∧
      ([Value.vstr "Alice", Value.vint 0])[1]? = some (kindZero .kint) := by
  have h := c3_row_bounds_zero_value rtP ["Name", "Age"] ["Alice"]
    [.vstr "Alice", .vint 0] 1 1
    ⟨1, "Age", 1, { fname := "Age", ftype := plainType .kint }⟩
    (by decide) (by rfl) (by rfl)
  refine ⟨by rfl, ?_⟩
  have hb := (h.1 (by rfl)).2 (by decide)
  exact hb

/-- C9: header columns whose trimmed name matches no declared name are
never entered into the Column Mapping (so never read), and a declared
field absent from the trimmed header names is left at its kind's zero
value in every decoded record; Reader construction itself cannot fail on
such headers (the embedded createFieldMap is total). -/
theorem c9_extraneous_and_missing_columns (rt : List GoField)
    (headers row : List String) (vals : List Value) (idx p : Nat) (f : GoField)
    (hnod : (rt.map fun x => x.fname).Nodup) :
    ((∀ h, headers[idx]? = some h →
        trimGo h ∉ (resolveFields rt).map fun fi => fi.name) →
      fmLookup (createFieldMap headers rt) idx = none) ∧
    (rt[p]? = some f → (declName f ∉ headers.map trimGo) →
      decodeRow rt (createFieldMap headers rt) row = .ok vals →
      vals[p]? = some (kindZero f.ftype.kind)) := by
  constructor
  · intro hno
    cases hl : fmLookup (createFieldMap headers rt) idx with
    | none => rfl
    | some fi =>
      obtain ⟨hmem, hhm⟩ := createFieldMap_sound hl
      obtain ⟨k, h, hget, htrim, hik⟩ := headerMapGo_sound headers 0 fi.name idx hhm
      have hk : k = idx := by omega
      subst hk
      have : trimGo h ∈ (resolveFields rt).map fun fi => fi.name := by
        rw [htrim]
        exact List.mem_map_of_mem _ hmem
      exact absurd this (hno h hget)
  · intro hf habsent hok
    have hplen : p < rt.length := by
      rcases List.getElem?_eq_some.mp hf with ⟨hh, -⟩
      exact hh
    have hall : ∀ c ∈ withIdx 0 row, ∀ fj,
        fmLookup (createFieldMap headers rt) c.1 = some fj →
        findFieldIdx rt fj.gf.fname ≠ some p := by
      intro c hc fj hfj hfp
      obtain ⟨f2, hf2, hfn2⟩ := findFieldIdx_sound rt fj.gf.fname p hfp
      have hf2f : f2 = f := by
        have := hf2.symm.trans hf
        simpa using this
      subst hf2f
      obtain ⟨hmem, hhm⟩ := createFieldMap_sound hfj
      obtain ⟨hg, hn, -⟩ := resolveFields_mem hmem
      have hfind : findFieldIdx rt fj.gf.fname = some fj.pos :=
        findFieldIdx_of_getElem? rt hnod fj.pos fj.gf hg
      have hpp : fj.pos = p := by
        have := hfind.symm.trans hfp
        simpa using this
      have hgff : fj.gf = f2 := by
        rw [hpp] at hg
        have := hg.symm.trans hf2
        simpa using this
      obtain ⟨k, h, hget, htrim, -⟩ := headerMapGo_sound headers 0 fj.name c.1 hhm
      have : declName f2 ∈ headers.map trimGo := by
        rw [← hgff, ← hn, ← htrim]
        exact List.mem_map_of_mem _ (List.mem_iff_getElem?.mpr ⟨k, hget⟩)
      exact absurd this habsent
    have hz := decodeRowAux_untouched rt (createFieldMap headers rt)
      (withIdx 0 row) (zeroRecord rt) vals p hall hok
    rw [hz, zeroRecord_getElem? rt p hplen]
    have : rt.getD p defaultGoField = f := by
      rw [List.getD_eq_getElem?_getD, hf]
      rfl
    rw [this]

/-- C9 witness: header Name,Extra over the (Name, Age) record type; the
Extra column is unmapped and the Age field, absent from the header, stays
int zero. -/
theorem c9_extraneous_and_missing_columns_witness :
    fmLookup (createFieldMap ["Name", "Extra"] rtP) 1 = none ∧
      decodeRow rtP (createFieldMap ["Name", "Extra"] rtP) ["Alice", "zz"] =
        .ok [.vstr "Alice", .vint 0] ∧
      ([Value.vstr "Alice", Value.vint 0])[1]? = some (kindZero .kint) := by
  have h := c9_extraneous_and_missing_columns rtP ["Name", "Extra"]
    ["Alice", "zz"] [.vstr "Alice", .vint 0] 1 1
    { fname := "Age", ftype := plainType .kint } (by decide)
  refine ⟨?_, by rfl, ?_⟩
  · refine h.1 ?_
    intro s hs
    simp only [List.getElem?_cons_succ, List.getElem?_cons_zero,
      Option.some.injEq] at hs
    subst hs
    decide
  · exact h.2 (by rfl) (by decide) (by rfl)

/- ---------------------------------------------------------------------
Claim C2: write-then-read round trip.
--------------------------------------------------------------------- -/

/-- The resolved field list of a record type with neither skips nor
explicit ordinals: declaration order, ordinal = declaration position. -/
def defaultInfos (rt : List GoField) : List FieldInfo :=
  (withIdx 0 rt).map fun c => ⟨c.1, declName c.2, (c.1 : Int), c.2⟩

theorem withIdx_length (l : List α) : ∀ k, (withIdx k l).length = l.length := by
  induction l with
  | nil => intro k; rfl
  | cons x xs ih => intro k; simp [withIdx, ih (k + 1)]

theorem withIdx_map (l : List α) (g : α → β) :
    ∀ k, withIdx k (l.map g) = (withIdx k l).map fun c => (c.1, g c.2) := by
  induction l with
  | nil => intro k; rfl
  | cons x xs ih => intro k; simp [withIdx, ih (k + 1)]

theorem withIdx_map_snd (l : List α) (g : α → β) :
    ∀ k, (withIdx k l).map (fun c => g c.2) = l.map g := by
  induction l with
  | nil => intro k; rfl
  | cons x xs ih => intro k; simp [withIdx, ih (k + 1)]

theorem mapCongrMem : ∀ (l : List α) (f g : α → β),
    (∀ a ∈ l, f a = g a) → l.map f = l.map g := by
  intro l
  induction l with
  | nil => intro f g _; rfl
  | cons x xs ih =>
    intro f g h
    simp only [List.map_cons, h x (List.mem_cons_self x xs)]
    rw [ih f g fun a ha => h a (List.mem_cons_of_mem x ha)]

theorem collectFields_default :
    ∀ (fs : List GoField) (i : Nat),
      (∀ f ∈ fs, f.skip = false) → (∀ f ∈ fs, f.tagIndex = none) →
      collectFields fs i =
        ((withIdx i fs).map fun c => ⟨c.1, declName c.2, (c.1 : Int), c.2⟩, -1) := by
  intro fs
  induction fs with
  | nil => intro i _ _; rfl
  | cons f fs ih =>
    intro i hsk hexp
    have hs : f.skip = false := hsk f (List.mem_cons_self f fs)
    have he : f.tagIndex = none := hexp f (List.mem_cons_self f fs)
    simp only [collectFields, ih (i + 1)
      (fun g hg => hsk g (List.mem_cons_of_mem f hg))
      (fun g hg => hexp g (List.mem_cons_of_mem f hg)), hs, he]
    simp [withIdx, Option.getD]

theorem assignIndexes_cons (fi : FieldInfo) (rest : List FieldInfo) (next : Int) :
    assignIndexes (fi :: rest) next =
      if fi.index = (fi.pos : Int) then
        { fi with index := next } :: assignIndexes rest (next + 1)
      else fi :: assignIndexes rest next := rfl

theorem assignIndexes_default :
    ∀ (fs : List GoField) (i : Nat),
      assignIndexes ((withIdx i fs).map fun c => ⟨c.1, declName c.2, (c.1 : Int), c.2⟩)
          (i : Int) =
        (withIdx i fs).map fun c => ⟨c.1, declName c.2, (c.1 : Int), c.2⟩ := by
  intro fs
  induction fs with
  | nil => intro i; rfl
  | cons f fs ih =>
    intro i
    have hcast : ((i : Int) + 1) = ((i + 1 : Nat) : Int) := by push_cast; ring
    show assignIndexes
        ((⟨i, declName f, (i : Int), f⟩ : FieldInfo) ::
          ((withIdx (i + 1) fs).map fun c => ⟨c.1, declName c.2, (c.1 : Int), c.2⟩))
        (i : Int) =
      (⟨i, declName f, (i : Int), f⟩ : FieldInfo) ::
        ((withIdx (i + 1) fs).map fun c => ⟨c.1, declName c.2, (c.1 : Int), c.2⟩)
    rw [assignIndexes_cons, if_pos rfl, hcast, ih (i + 1)]

theorem insertByIndex_lt (x : FieldInfo) :
    ∀ (l : List FieldInfo), (∀ y ∈ l, x.index < y.index) →
      insertByIndex x l = x :: l := by
  intro l
  induction l with
  | nil => intro _; rfl
  | cons y ys _ =>
    intro h
    have := h y (List.mem_cons_self y ys)
    simp only [insertByIndex, if_neg (by omega : ¬y.index ≤ x.index)]

theorem withIdx_default_index_lb (fs : List GoField) (i : Nat) (y : FieldInfo)
    (hy : y ∈ (withIdx i fs).map fun c => ⟨c.1, declName c.2, (c.1 : Int), c.2⟩) :
    (i : Int) ≤ y.index := by
  simp only [List.mem_map] at hy
  obtain ⟨c, hc, he⟩ := hy
  obtain ⟨h1, -, -⟩ := withIdx_mem fs i c hc
  rw [← he]
  simpa using by omega

theorem sortFields_default :
    ∀ (fs : List GoField) (i : Nat),
      sortFields ((withIdx i fs).map fun c => ⟨c.1, declName c.2, (c.1 : Int), c.2⟩) =
        (withIdx i fs).map fun c => ⟨c.1, declName c.2, (c.1 : Int), c.2⟩ := by
  intro fs
  induction fs with
  | nil => intro i; rfl
  | cons f fs ih =>
    intro i
    simp only [withIdx, List.map_cons, sortFields, ih (i + 1)]
    refine insertByIndex_lt _ _ ?_
    intro y hy
    have := withIdx_default_index_lb fs (i + 1) y hy
    have h2 : ((i : Int)) < ((i + 1 : Nat) : Int) := by push_cast; omega
    simp only []
    omega

theorem resolveFields_default (rt : List GoField)
    (hsk : ∀ f ∈ rt, f.skip = false) (hexp : ∀ f ∈ rt, f.tagIndex = none) :
    resolveFields rt = defaultInfos rt := by
  simp only [resolveFields, collectFields_default rt 0 hsk hexp]
  have h0 : ((-1 : Int) + 1) = ((0 : Nat) : Int) := by norm_num
  rw [h0, assignIndexes_default rt 0, sortFields_default rt 0]
  rfl

theorem headerRow_default (rt : List GoField)
    (hsk : ∀ f ∈ rt, f.skip = false) (hexp : ∀ f ∈ rt, f.tagIndex = none) :
    headerRow rt = rt.map declName := by
  simp only [headerRow, resolveFields_default rt hsk hexp, defaultInfos,
    List.map_map]
  exact withIdx_map_snd rt declName 0

theorem headerMapGo_self :
    ∀ (headers : List String) (i k : Nat) (h : String),
      ((headers.map trimGo).Nodup) → headers[k]? = some h →
      headerMapGo i headers (trimGo h) = some (i + k) := by
  intro headers
  induction headers with
  | nil => intro i k h _ hg; simp at hg
  | cons hd rest ih =>
    intro i k h hnod hg
    simp only [List.map_cons, List.nodup_cons] at hnod
    obtain ⟨hnotin, hnod2⟩ := hnod
    cases k with
    | zero =>
      have hgh : hd = h := by simpa using hg
      subst hgh
      have hnone : headerMapGo (i + 1) rest (trimGo hd) = none := by
        cases hr : headerMapGo (i + 1) rest (trimGo hd) with
        | none => rfl
        | some j =>
          obtain ⟨k2, h2, hg2, ht2, -⟩ := headerMapGo_sound rest (i + 1) _ j hr
          have : trimGo hd ∈ rest.map trimGo := by
            rw [← ht2]
            exact List.mem_map_of_mem _ (List.mem_iff_getElem?.mpr ⟨k2, hg2⟩)
          exact absurd this hnotin
      simp [headerMapGo, hnone]
    | succ k2 =>
      simp only [List.getElem?_cons_succ] at hg
      have := ih (i + 1) k2 h hnod2 hg
      simp only [headerMapGo, this]
      have : i + 1 + k2 = i + (k2 + 1) := by omega
      rw [this]

theorem buildFieldMap_lookup_none (hm : String → Option Nat) :
    ∀ (l : List FieldInfo) (m : List (Nat × FieldInfo)) (idx : Nat),
      (∀ fj ∈ l, hm fj.name ≠ some idx) →
      fmLookup (buildFieldMap hm l m) idx = fmLookup m idx := by
  intro l
  induction l with
  | nil => intro m idx _; rfl
  | cons g rest ih =>
    intro m idx hno
    simp only [buildFieldMap]
    cases hg : hm g.name with
    | some j =>
      rw [ih _ idx fun fj hf => hno fj (List.mem_cons_of_mem g hf)]
      have hj : idx ≠ j := by
        intro he
        exact hno g (List.mem_cons_self g rest) (by rw [hg, he])
      simp [fmLookup, hj]
    | none =>
      exact ih _ idx fun fj hf => hno fj (List.mem_cons_of_mem g hf)

theorem buildFieldMap_lookup_nodup (hm : String → Option Nat) :
    ∀ (l : List FieldInfo) (m : List (Nat × FieldInfo)) (idx : Nat) (fi : FieldInfo),
      ((l.map fun fj => hm fj.name).Nodup) → fi ∈ l → hm fi.name = some idx →
      fmLookup (buildFieldMap hm l m) idx = some fi := by
  intro l
  induction l with
  | nil => intro m idx fi _ hmem; simp at hmem
  | cons g rest ih =>
    intro m idx fi hnod hmem hkey
    simp only [List.map_cons, List.nodup_cons] at hnod
    obtain ⟨hnotin, hnod2⟩ := hnod
    rcases List.mem_cons.mp hmem with he | hmem2
    · subst he
      simp only [buildFieldMap, hkey]
      have hrest : ∀ fj ∈ rest, hm fj.name ≠ some idx := by
        intro fj hf hkey2
        apply hnotin
        rw [hkey, ← hkey2]
        exact List.mem_map_of_mem _ hf
      rw [buildFieldMap_lookup_none hm rest _ idx hrest]
      simp [fmLookup]
    · have hgne : hm g.name ≠ some idx := by
        intro he
        refine hnotin ?_
        rw [he, ← hkey]
        exact List.mem_map_of_mem _ hmem2
      simp only [buildFieldMap]
      cases hg : hm g.name with
      | some j => exact ih _ idx fi hnod2 hmem2 hkey
      | none => exact ih _ idx fi hnod2 hmem2 hkey

/-- Go's static typing of a whole record value against its struct type. -/
def typedRec : List GoField → List Value → Bool
  | [], [] => true
  | f :: fs, v :: vs => typedVal f.ftype.kind v && typedRec fs vs
  | _, _ => false

/-- The built-in encoding rules of getFieldStringValue's kind switch. -/
def builtinEncode (k : FKind) (v : Value) : String :=
  match k with
  | .kstr => v.toStr
  | .kint => formatInt v.toInt
  | .kuint => formatUint v.toUint
  | .kbool => formatBool v.toBool

theorem noHooks_fields {t : FType} (h : noHooks t = true) :
    t.unmarshalVal = none ∧ t.unmarshalPtr = none ∧
      t.marshalVal = none ∧ t.marshalPtr = none := by
  simp only [noHooks, Bool.and_eq_true, Option.isNone_iff_eq_none] at h
  exact ⟨h.1.1.1, h.1.1.2, h.1.2, h.2⟩

theorem getFieldStringValue_nohook (t : FType) (v : Value) (a : Bool)
    (h : noHooks t = true) :
    getFieldStringValue a t v = .ok (builtinEncode t.kind v) := by
  obtain ⟨-, -, hmv, hmp⟩ := noHooks_fields h
  cases a <;> cases hk : t.kind <;>
    simp [getFieldStringValue, hmv, hmp, builtinEncode, hk]

theorem setFieldValue_roundtrip (t : FType) (v old : Value)
    (hnh : noHooks t = true) (hk : t.kind ≠ .kuint)
    (ht : typedVal t.kind v = true) :
    setFieldValue true old t (builtinEncode t.kind v) = .ok v := by
  obtain ⟨huv, hup, -, -⟩ := noHooks_fields hnh
  cases hkind : t.kind with
  | kstr =>
    cases v <;> simp [typedVal, hkind] at ht ⊢
    simp [setFieldValue, huv, hup, hkind, builtinEncode, Value.toStr]
  | kint =>
    cases v with
    | vint n =>
      simp only [typedVal, hkind, Bool.and_eq_true, decide_eq_true_eq] at ht
      have hparse := parseIntStr_formatInt n ht.1 (by omega)
      simp [setFieldValue, huv, hup, hkind, builtinEncode, Value.toInt, hparse]
    | vstr s => simp [typedVal, hkind] at ht
    | vbool b => simp [typedVal, hkind] at ht
    | vuint m => simp [typedVal, hkind] at ht
  | kbool =>
    cases v with
    | vbool b =>
      simp [setFieldValue, huv, hup, hkind, builtinEncode, Value.toBool,
        parseBoolStr_formatBool]
    | vstr s => simp [typedVal, hkind] at ht
    | vint n => simp [typedVal, hkind] at ht
    | vuint m => simp [typedVal, hkind] at ht
  | kuint => exact absurd hkind hk

theorem typedRec_length :
    ∀ (rt : List GoField) (r : List Value),
      typedRec rt r = true → r.length = rt.length := by
  intro rt
  induction rt with
  | nil => intro r h; cases r with
    | nil => rfl
    | cons v vs => simp [typedRec] at h
  | cons f fs ih =>
    intro r h
    cases r with
    | nil => simp [typedRec] at h
    | cons v vs =>
      simp only [typedRec, Bool.and_eq_true] at h
      simp [ih vs h.2]

theorem typedRec_getElem :
    ∀ (rt : List GoField) (r : List Value),
      typedRec rt r = true →
      ∀ (p : Nat) (f : GoField) (v : Value),
        rt[p]? = some f → r[p]? = some v → typedVal f.ftype.kind v = true := by
  intro rt
  induction rt with
  | nil => intro r _ p f v hf; simp at hf
  | cons g gs ih =>
    intro r h p f v hf hv
    cases r with
    | nil => simp [typedRec] at h
    | cons w ws =>
      simp only [typedRec, Bool.and_eq_true] at h
      cases p with
      | zero =>
        simp only [List.getElem?_cons_zero, Option.some.injEq] at hf hv
        rw [← hf, ← hv]
        exact h.1
      | succ q =>
        simp only [List.getElem?_cons_succ] at hf hv
        exact ih ws h.2 q f v hf hv

theorem encodeFields_cons (rt : List GoField) (vals : List Value)
    (fi : FieldInfo) (rest : List FieldInfo) :
    encodeFields rt vals (fi :: rest) =
      match (match findFieldIdx rt fi.gf.fname with
             | none => (.error "unsupported field type: invalid" : Except String String)
             | some p =>
               getFieldStringValue false (rt.getD p defaultGoField).ftype
                 (vals.getD p (kindZero (rt.getD p defaultGoField).ftype.kind))) with
      | .error e => .error ("error marshaling field " ++ fi.gf.fname ++ ": " ++ e)
      | .ok s =>
        match encodeFields rt vals rest with
        | .error e => .error e
        | .ok ss => .ok (s :: ss) := rfl

theorem encodeFields_default (rt : List GoField)
    (hnod : (rt.map fun f => f.fname).Nodup)
    (hnh : ∀ f ∈ rt, noHooks f.ftype = true) :
    ∀ (fs : List GoField) (k : Nat) (vals : List Value),
      (∀ c ∈ withIdx k fs, rt[c.1]? = some c.2) →
      encodeFields rt vals
          ((withIdx k fs).map fun c => ⟨c.1, declName c.2, (c.1 : Int), c.2⟩) =
        .ok ((withIdx k fs).map fun c =>
          builtinEncode c.2.ftype.kind (vals.getD c.1 (kindZero c.2.ftype.kind))) := by
  intro fs
  induction fs with
  | nil => intro k vals _; rfl
  | cons f fs ih =>
    intro k vals hcells
    have hget : rt[k]? = some f := by
      have := hcells (k, f) (by simp [withIdx])
      simpa using this
    have hfind : findFieldIdx rt f.fname = some k :=
      findFieldIdx_of_getElem? rt hnod k f hget
    have hgetD : rt.getD k defaultGoField = f := by
      rw [List.getD_eq_getElem?_getD, hget]
      rfl
    have hmem : f ∈ rt := List.mem_iff_getElem?.mpr ⟨k, hget⟩
    have henc := getFieldStringValue_nohook f.ftype
      (vals.getD k (kindZero f.ftype.kind)) false (hnh f hmem)
    have htail := ih (k + 1) vals
      (fun c hc => hcells c (by simp [withIdx, hc]))
    show encodeFields rt vals
        ((⟨k, declName f, (k : Int), f⟩ : FieldInfo) ::
          ((withIdx (k + 1) fs).map fun c => ⟨c.1, declName c.2, (c.1 : Int), c.2⟩)) =
      .ok (builtinEncode f.ftype.kind (vals.getD k (kindZero f.ftype.kind)) ::
        ((withIdx (k + 1) fs).map fun c =>
          builtinEncode c.2.ftype.kind (vals.getD c.1 (kindZero c.2.ftype.kind))))
    rw [encodeFields_cons]
    dsimp only
    rw [hfind]
    dsimp only
    rw [hgetD, henc, htail]

theorem decodeRowAux_cons (rt : List GoField) (fm : List (Nat × FieldInfo))
    (c : Nat × String) (rest : List (Nat × String)) (vals : List Value) :
    decodeRowAux rt fm (c :: rest) vals =
      match fmLookup fm c.1 with
      | none => decodeRowAux rt fm rest vals
      | some fi =>
        match decodeCell rt vals fi c.2 with
        | .error e => .error e
        | .ok vals' => decodeRowAux rt fm rest vals' := rfl

theorem withIdx_mem_of_getElem? :
    ∀ (l : List α) (k j : Nat) (x : α), l[j]? = some x →
      (k + j, x) ∈ withIdx k l := by
  intro l
  induction l with
  | nil => intro k j x h; simp at h
  | cons y ys ih =>
    intro k j x h
    cases j with
    | zero =>
      simp only [List.getElem?_cons_zero, Option.some.injEq] at h
      simp [withIdx, ← h]
    | succ j2 =>
      simp only [List.getElem?_cons_succ] at h
      have := ih (k + 1) j2 x h
      have he : k + 1 + j2 = k + (j2 + 1) := by omega
      rw [he] at this
      simp [withIdx, this]

theorem withIdx_fst_pairwise (l : List α) :
    ∀ k, (withIdx k l).Pairwise fun a b => a.1 < b.1 := by
  induction l with
  | nil => intro k; simp [withIdx]
  | cons x xs ih =>
    intro k
    simp only [withIdx]
    refine List.Pairwise.cons ?_ (ih (k + 1))
    intro b hb
    obtain ⟨h1, -, -⟩ := withIdx_mem xs (k + 1) b hb
    simpa using by omega

theorem withIdx_withIdx (l : List α) :
    ∀ k, withIdx k (withIdx k l) = (withIdx k l).map fun c => (c.1, c) := by
  induction l with
  | nil => intro k; rfl
  | cons x xs ih => intro k; simp [withIdx, ih (k + 1)]

theorem tokenizeRows_id :
    ∀ (rows : List (List String)), (∀ r ∈ rows, r ≠ []) →
      tokenizeRows rows = rows := by
  intro rows
  induction rows with
  | nil => intro _; rfl
  | cons r rs ih =>
    intro h
    have hr : r ≠ [] := h r (List.mem_cons_self r rs)
    have : (!r.isEmpty) = true := by
      simp [List.isEmpty_iff, hr]
    simp only [tokenizeRows, List.filter_cons, this, if_true]
    have := ih fun x hx => h x (List.mem_cons_of_mem r hx)
    simp only [tokenizeRows] at this
    rw [this]

theorem decode_encoded (rt : List GoField) (fm : List (Nat × FieldInfo))
    (hnod : (rt.map fun f => f.fname).Nodup)
    (hfm : ∀ (j : Nat) (f : GoField), rt[j]? = some f →
      fmLookup fm j = some ⟨j, declName f, (j : Int), f⟩)
    (hnh : ∀ f ∈ rt, noHooks f.ftype = true)
    (hku : ∀ f ∈ rt, f.ftype.kind ≠ .kuint)
    (vals : List Value)
    (htv : ∀ (j : Nat) (f : GoField), rt[j]? = some f →
      typedVal f.ftype.kind (vals.getD j (kindZero f.ftype.kind)) = true) :
    ∀ (fs : List GoField) (k : Nat) (acc : List Value),
      k + fs.length = rt.length → acc.length = rt.length →
      (∀ c ∈ withIdx k fs, rt[c.1]? = some c.2) →
      ∃ acc', decodeRowAux rt fm
          ((withIdx k fs).map fun c =>
            (c.1, builtinEncode c.2.ftype.kind (vals.getD c.1 (kindZero c.2.ftype.kind))))
          acc = .ok acc' ∧
        ∀ p, acc'[p]? =
          if k ≤ p ∧ p < rt.length then
            some (vals.getD p (kindZero (rt.getD p defaultGoField).ftype.kind))
          else acc[p]? := by
  intro fs
  induction fs with
  | nil =>
    intro k acc hk _ _
    refine ⟨acc, rfl, ?_⟩
    intro p
    rw [if_neg (by simp at hk; omega)]
  | cons f fs ih =>
    intro k acc hk hacc hcells
    have hget : rt[k]? = some f := by
      have := hcells (k, f) (by simp [withIdx])
      simpa using this
    have hfind : findFieldIdx rt f.fname = some k :=
      findFieldIdx_of_getElem? rt hnod k f hget
    have hgetD : rt.getD k defaultGoField = f := by
      rw [List.getD_eq_getElem?_getD, hget]
      rfl
    have hmem : f ∈ rt := List.mem_iff_getElem?.mpr ⟨k, hget⟩
    have hkn : k < rt.length := by
      simp only [List.length_cons] at hk
      omega
    have hrt : setFieldValue true (acc.getD k (kindZero f.ftype.kind)) f.ftype
        (builtinEncode f.ftype.kind (vals.getD k (kindZero f.ftype.kind))) =
        .ok (vals.getD k (kindZero f.ftype.kind)) :=
      setFieldValue_roundtrip f.ftype _ _ (hnh f hmem) (hku f hmem)
        (htv k f hget)
    have hcell : decodeCell rt acc ⟨k, declName f, (k : Int), f⟩
        (builtinEncode f.ftype.kind (vals.getD k (kindZero f.ftype.kind))) =
        .ok (acc.set k (vals.getD k (kindZero f.ftype.kind))) := by
      simp only [decodeCell]
      rw [hfind]
      dsimp only
      rw [hgetD, hrt]
    obtain ⟨acc', hdec, hchar⟩ := ih (k + 1)
      (acc.set k (vals.getD k (kindZero f.ftype.kind)))
      (by simp only [List.length_cons] at hk; omega)
      (by rw [List.length_set]; exact hacc)
      (fun c hc => hcells c (by simp [withIdx, hc]))
    refine ⟨acc', ?_, ?_⟩
    · show decodeRowAux rt fm
        ((k, builtinEncode f.ftype.kind (vals.getD k (kindZero f.ftype.kind))) ::
          ((withIdx (k + 1) fs).map fun c =>
            (c.1, builtinEncode c.2.ftype.kind (vals.getD c.1 (kindZero c.2.ftype.kind)))))
        acc = .ok acc'
      rw [decodeRowAux_cons]
      dsimp only
      rw [hfm k f hget]
      dsimp only
      rw [hcell]
      exact hdec
    · intro p
      rcases Nat.lt_trichotomy p k with hlt | heq | hgt
      · rw [hchar p, if_neg (by omega), if_neg (by omega)]
        exact List.getElem?_set_ne (by omega)
      · subst heq
        rw [hchar p, if_neg (by omega), if_pos ⟨Nat.le_refl p, hkn⟩]
        rw [List.getElem?_set_self (by omega), hgetD]
      · rw [hchar p]
        by_cases hpn : p < rt.length
        · rw [if_pos (by omega), if_pos (by omega)]
        · rw [if_neg (by omega), if_neg (by omega)]
          exact List.getElem?_set_ne (by omega)

/-- The row the Writer emits for one record of a default-ordered record
type: each field's built-in encoding, in declaration order. -/
def encRowOf (rt : List GoField) (r : List Value) : List String :=
  (withIdx 0 rt).map fun c =>
    builtinEncode c.2.ftype.kind (r.getD c.1 (kindZero c.2.ftype.kind))

theorem encodeRecord_default (rt : List GoField)
    (hsk : ∀ f ∈ rt, f.skip = false) (hexp : ∀ f ∈ rt, f.tagIndex = none)
    (hfn : (rt.map fun f => f.fname).Nodup)
    (hnh : ∀ f ∈ rt, noHooks f.ftype = true) (r : List Value) :
    encodeRecord rt r = .ok (encRowOf rt r) := by
  rw [encodeRecord, resolveFields_default rt hsk hexp]
  refine encodeFields_default rt hfn hnh rt 0 r ?_
  intro c hc
  obtain ⟨-, -, h3⟩ := withIdx_mem rt 0 c hc
  simpa using h3

theorem encodeRows_default (rt : List GoField)
    (hsk : ∀ f ∈ rt, f.skip = false) (hexp : ∀ f ∈ rt, f.tagIndex = none)
    (hfn : (rt.map fun f => f.fname).Nodup)
    (hnh : ∀ f ∈ rt, noHooks f.ftype = true) :
    ∀ records : List (List Value),
      encodeRows rt records = .ok (records.map (encRowOf rt)) := by
  intro records
  induction records with
  | nil => rfl
  | cons r rs ih =>
    simp only [encodeRows, encodeRecord_default rt hsk hexp hfn hnh r, ih,
      List.map_cons]

theorem decodeRow_encoded (rt : List GoField) (fm : List (Nat × FieldInfo))
    (hnod : (rt.map fun f => f.fname).Nodup)
    (hfm : ∀ (j : Nat) (f : GoField), rt[j]? = some f →
      fmLookup fm j = some ⟨j, declName f, (j : Int), f⟩)
    (hnh : ∀ f ∈ rt, noHooks f.ftype = true)
    (hku : ∀ f ∈ rt, f.ftype.kind ≠ .kuint)
    (r : List Value) (hty : typedRec rt r = true) :
    decodeRow rt fm (encRowOf rt r) = .ok r := by
  have hlen := typedRec_length rt r hty
  have htv : ∀ (j : Nat) (f : GoField), rt[j]? = some f →
      typedVal f.ftype.kind (r.getD j (kindZero f.ftype.kind)) = true := by
    intro j f hj
    have hjlen : j < rt.length := by
      rcases List.getElem?_eq_some.mp hj with ⟨hh, -⟩
      exact hh
    have hjr : j < r.length := by omega
    have hv : r[j]? = some (r.getD j (kindZero f.ftype.kind)) := by
      rw [List.getD_eq_getElem?_getD, List.getElem?_eq_getElem hjr]
      rfl
    exact typedRec_getElem rt r hty j f _ hj hv
  obtain ⟨acc', hdec, hchar⟩ := decode_encoded rt fm hnod hfm hnh hku r htv rt 0
    (zeroRecord rt) (by omega) (zeroRecord_length rt)
    (fun c hc => by
      obtain ⟨-, -, h3⟩ := withIdx_mem rt 0 c hc
      simpa using h3)
  have hcells_eq : withIdx 0 (encRowOf rt r) =
      (withIdx 0 rt).map fun c =>
        (c.1, builtinEncode c.2.ftype.kind (r.getD c.1 (kindZero c.2.ftype.kind))) := by
    rw [encRowOf, withIdx_map, withIdx_withIdx, List.map_map]
    rfl
  have hacc' : acc' = r := by
    refine List.ext_getElem? ?_
    intro p
    rw [hchar p]
    by_cases hp : p < rt.length
    · rw [if_pos ⟨Nat.zero_le p, hp⟩]
      rw [List.getD_eq_getElem?_getD, List.getElem?_eq_getElem (by omega : p < r.length)]
      rfl
    · rw [if_neg (by omega)]
      rw [List.getElem?_len_le (by rw [zeroRecord_length]; omega),
        List.getElem?_len_le (by omega : r.length ≤ p)]
  show decodeRowAux rt fm (withIdx 0 (encRowOf rt r)) (zeroRecord rt) = .ok r
  rw [hcells_eq, hdec, hacc']

theorem decodeRows_encoded (rt : List GoField) (fm : List (Nat × FieldInfo))
    (hnod : (rt.map fun f => f.fname).Nodup)
    (hfm : ∀ (j : Nat) (f : GoField), rt[j]? = some f →
      fmLookup fm j = some ⟨j, declName f, (j : Int), f⟩)
    (hnh : ∀ f ∈ rt, noHooks f.ftype = true)
    (hku : ∀ f ∈ rt, f.ftype.kind ≠ .kuint) :
    ∀ records : List (List Value), (∀ r ∈ records, typedRec rt r = true) →
      decodeRows rt fm (records.map (encRowOf rt)) = .ok records := by
  intro records
  induction records with
  | nil => intro _; rfl
  | cons r rs ih =>
    intro hty
    have h1 := decodeRow_encoded rt fm hnod hfm hnh hku r
      (hty r (List.mem_cons_self r rs))
    have h2 := ih fun x hx => hty x (List.mem_cons_of_mem r hx)
    simp only [List.map_cons, decodeRows, h1, h2]

theorem createFieldMap_default (rt : List GoField)
    (hsk : ∀ f ∈ rt, f.skip = false) (hexp : ∀ f ∈ rt, f.tagIndex = none)
    (hnames : ((rt.map declName).Nodup))
    (htrim : ∀ f ∈ rt, trimGo (declName f) = declName f) :
    ∀ (j : Nat) (f : GoField), rt[j]? = some f →
      fmLookup (createFieldMap (rt.map declName) rt) j =
        some ⟨j, declName f, (j : Int), f⟩ := by
  have htrimmap : (rt.map declName).map trimGo = rt.map declName := by
    rw [List.map_map]
    exact mapCongrMem rt _ _ fun g hg => htrim g hg
  have hheadnodup : ((rt.map declName).map trimGo).Nodup := by
    rw [htrimmap]
    exact hnames
  have hkey : ∀ c : Nat × GoField, c ∈ withIdx 0 rt →
      headerMapGo 0 (rt.map declName) (declName c.2) = some c.1 := by
    intro c hc
    obtain ⟨-, -, hg⟩ := withIdx_mem rt 0 c hc
    have hg2 : rt[c.1]? = some c.2 := by simpa using hg
    have hh : (rt.map declName)[c.1]? = some (declName c.2) := by
      rw [List.getElem?_map, hg2]
      rfl
    have := headerMapGo_self (rt.map declName) 0 c.1 (declName c.2) hheadnodup hh
    rwa [htrim c.2 (List.mem_iff_getElem?.mpr ⟨c.1, hg2⟩), Nat.zero_add] at this
  intro j f hj
  rw [createFieldMap, resolveFields_default rt hsk hexp]
  have hkeys : ((defaultInfos rt).map fun fi =>
      headerMapGo 0 (rt.map declName) fi.name).Nodup := by
    have h1 : ((defaultInfos rt).map fun fi =>
          headerMapGo 0 (rt.map declName) fi.name) =
        (withIdx 0 rt).map fun c => some c.1 := by
      rw [defaultInfos, List.map_map]
      exact mapCongrMem _ _ _ fun c hc => hkey c hc
    rw [h1]
    have hp := withIdx_fst_pairwise rt 0
    exact List.Pairwise.map _ (fun a b hab => by simpa using by omega) hp
  have hmm := withIdx_mem_of_getElem? rt 0 j f hj
  rw [Nat.zero_add] at hmm
  have hmemd : (⟨j, declName f, (j : Int), f⟩ : FieldInfo) ∈ defaultInfos rt :=
    List.mem_map_of_mem _ hmm
  exact buildFieldMap_lookup_nodup _ _ [] j _ hkeys hmemd (hkey (j, f) hmm)

/-- The record type with one unsigned-integer field, exhibiting the C2
counterexample. -/
def rtU : List GoField := [{ fname := "N", ftype := plainType .kuint }]

/-- C2 counterexample: the claim quantifies over every record type, but
for a record type with a uint field the Writer emits its base-10 text
while the Reader rejects it, so the round trip is not the identity: the
read-back traversal panics with the unsupported-field-type error instead
of reproducing the record. -/
theorem c2_uint_roundtrip_counterexample :
    (writeAll rtU initWriter [[.vuint 5]]).2 = none ∧
      (writeAll rtU initWriter [[.vuint 5]]).1.sink = [["N"], ["5"]] ∧
      readAll rtU [["N"], ["5"]] =
        some ([], .panicked "error setting field N: unsupported field type: uint64") ∧
      readAll rtU (writeAll rtU initWriter [[.vuint 5]]).1.sink ≠
        some ([[.vuint 5]], .done) := by
  refine ⟨rfl, rfl, rfl, by decide⟩

theorem withIdx_getElem? (l : List α) :
    ∀ (k j : Nat), (withIdx k l)[j]? = (l[j]?).map fun x => (k + j, x) := by
  induction l with
  | nil => intro k j; simp [withIdx]
  | cons x xs ih =>
    intro k j
    cases j with
    | zero => simp [withIdx]
    | succ j2 =>
      simp only [withIdx, List.getElem?_cons_succ]
      rw [ih (k + 1) j2]
      have he : k + 1 + j2 = k + (j2 + 1) := by omega
      rw [he]

theorem withIdx_getElem0 (l : List α) (j : Nat) :
    (withIdx 0 l)[j]? = (l[j]?).map fun x => (j, x) := by
  rw [withIdx_getElem?]
  simp only [Nat.zero_add]

/-- Cell j of a record's emitted row is the built-in encoding of field j
of the record type: fields are written in declaration order. -/
theorem encRowOf_getElem? (rt : List GoField) (r : List Value) (j : Nat) :
    (encRowOf rt r)[j]? =
      (rt[j]?).map fun f =>
        builtinEncode f.ftype.kind (r.getD j (kindZero f.ftype.kind)) := by
  rw [encRowOf, List.getElem?_map, withIdx_getElem0, Option.map_map]
  rfl

/-- C2 (amended): for every record type with no explicit ordinals — and
none of the features that break the identity: no skipped fields, no
custom hooks, no unsigned-integer fields (the decoder rejects them, see
the counterexample), pairwise-distinct whitespace-trim-stable declared
names, distinct Go identifiers, at least one field — and every nonempty
well-typed record sequence, the Writer emits exactly the header (the
declared names in declaration order) followed by one row per record
whose j-th cell encodes the record's j-th field (declaration order),
and reading its output back yields exactly the original sequence with a
clean end. -/
theorem c2_roundtrip_amended (rt : List GoField) (records : List (List Value))
    (hrt : rt ≠ []) (hrecs : records ≠ [])
    (hsk : ∀ f ∈ rt, f.skip = false)
    (hexp : ∀ f ∈ rt, f.tagIndex = none)
    (hnh : ∀ f ∈ rt, noHooks f.ftype = true)
    (hku : ∀ f ∈ rt, f.ftype.kind ≠ .kuint)
    (hnames : ((rt.map declName).Nodup))
    (htrim : ∀ f ∈ rt, trimGo (declName f) = declName f)
    (hfn : (rt.map fun f => f.fname).Nodup)
    (hty : ∀ r ∈ records, typedRec rt r = true) :
    (writeAll rt initWriter records).2 = none ∧
      (writeAll rt initWriter records).1.sink =
        rt.map declName :: records.map (encRowOf rt) ∧
      (∀ (r : List Value) (j : Nat), (encRowOf rt r)[j]? =
        (rt[j]?).map fun f =>
          builtinEncode f.ftype.kind (r.getD j (kindZero f.ftype.kind))) ∧
      readAll rt (writeAll rt initWriter records).1.sink =
        some (records, .done) := by
  have hencRows := encodeRows_default rt hsk hexp hfn hnh records
  have hW := writeAll_fresh rt records (records.map (encRowOf rt)) hrecs hencRows
  have hrtlen : 0 < rt.length := List.length_pos.mpr hrt
  refine ⟨by rw [hW], ?_, fun r j => encRowOf_getElem? rt r j, ?_⟩
  · rw [hW]
    dsimp only
    rw [headerRow_default rt hsk hexp]
  · rw [hW]
    have hner : ∀ r ∈ headerRow rt :: records.map (encRowOf rt), r ≠ [] := by
      intro r hr
      rcases List.mem_cons.mp hr with he | hm
      · subst he
        rw [headerRow_default rt hsk hexp]
        intro hemp
        have hlen0 := congrArg List.length hemp
        simp only [List.length_map, List.length_nil] at hlen0
        omega
      · obtain ⟨r0, -, he⟩ := List.mem_map.mp hm
        rw [← he]
        intro hemp
        have := congrArg List.length hemp
        simp only [encRowOf, List.length_map, withIdx_length, List.length_nil] at this
        omega
    have htok : tokenizeRows (headerRow rt :: records.map (encRowOf rt)) =
        headerRow rt :: records.map (encRowOf rt) :=
      tokenizeRows_id _ hner
    have hnr : newReader rt (headerRow rt :: records.map (encRowOf rt)) =
        some (createFieldMap (headerRow rt) rt, records.map (encRowOf rt)) := by
      simp only [newReader, htok]
    have hhdr : headerRow rt = rt.map declName := headerRow_default rt hsk hexp
    have hfm : ∀ (j : Nat) (f : GoField), rt[j]? = some f →
        fmLookup (createFieldMap (headerRow rt) rt) j =
          some ⟨j, declName f, (j : Int), f⟩ := by
      rw [hhdr]
      exact createFieldMap_default rt hsk hexp hnames htrim
    have hdrows := decodeRows_encoded rt (createFieldMap (headerRow rt) rt)
      hfn hfm hnh hku records hty
    have hrun := runAllAux_done rt (createFieldMap (headerRow rt) rt)
      (records.map (encRowOf rt)) records 0 hdrows
    simp only [readAll, hnr, hrun]

/-- C2 amended witness: two (Name, Age) records; the sink carries the
header then both rows in declaration order and they survive the round
trip. -/
theorem c2_roundtrip_amended_witness :
    (writeAll rtP initWriter
        [[.vstr "Alice", .vint 30], [.vstr "Bob", .vint 25]]).2 = none ∧
      (writeAll rtP initWriter
          [[.vstr "Alice", .vint 30], [.vstr "Bob", .vint 25]]).1.sink =
        rtP.map declName ::
          [[Value.vstr "Alice", Value.vint 30],
            [Value.vstr "Bob", Value.vint 25]].map (encRowOf rtP) ∧
      (encRowOf rtP [Value.vstr "Alice", Value.vint 30])[1]? =
        (rtP[1]?).map (fun f => builtinEncode f.ftype.kind
          (([Value.vstr "Alice", Value.vint 30]).getD 1 (kindZero f.ftype.kind))) ∧
      readAll rtP (writeAll rtP initWriter
          [[.vstr "Alice", .vint 30], [.vstr "Bob", .vint 25]]).1.sink =
        some ([[.vstr "Alice", .vint 30], [.vstr "Bob", .vint 25]], .done) := by
  have h := c2_roundtrip_amended rtP
    [[.vstr "Alice", .vint 30], [.vstr "Bob", .vint 25]]
    (List.cons_ne_nil _ _) (List.cons_ne_nil _ _)
    (by decide) (by decide) (by decide) (by decide) (by decide) (by decide)
    (by decide) (by decide)
  exact ⟨h.1, h.2.1, h.2.2.1 [Value.vstr "Alice", Value.vint 30] 1, h.2.2.2⟩

end Rowboat
